import Mathlib

/-!
Shallow embedding of `src/executor/nested_loop_join_executor.cpp` (Peloton's
nested-loop join executor) together with theorems settling the claims about it.

The two control-loop variants (`Old_DExecute`, the materializing buffered
nested loop, and `DExecute`, the correlated index-probe variant) are embedded
as fueled state-transition functions over an explicit operator state `JState`.
Child operators are modelled as their observable input: the left child is a
finite list of tiles pulled by position; the correlated right child is a
bound-indexed family of tile lists with a scan position that a reset clears.
Functions of the abstract join executor that are not part of the source under
verification (the match bitsets and `BuildOuterJoinOutput`) are modelled from
the specification and marked as such.
-/

/-- A logical tile: the ordered list of (visible) row identifiers the tile's
iterator yields. -/
abbrev Tile := List Nat

/-- Observable events recorded while the correlated control loop runs:
probing a left row, pushing a key bound into the right child, a rejected
bound push, resetting the right child's scan state, and setting the
right-exhaustion flag. -/
inductive Event where
  | probedRow (r : Nat)
  | boundPushed (c v : Nat)
  | replaceFailed
  | resetRight
  | setRightDone
deriving DecidableEq

/-- Which side of the join a padded outer-completion row comes from. -/
inductive Side where
  | lft
  | rgt
deriving DecidableEq

/-- The join type configured on the plan node. -/
inductive JoinType where
  | inner
  | leftOuter
  | rightOuter
  | fullOuter
deriving DecidableEq

/-- The shape of the join predicate's left child expression: either a
tuple-value expression carrying a column id, or some other expression kind
(for which the C-style cast to `TupleValueExpression` is unsound). -/
inductive LExpr where
  | tve (col : Nat)
  | other

/-- The join predicate: its left child expression and the observable result
of `Evaluate(l, r, ctx).IsFalse()` on a row pair. -/
structure JPred where
  left : LExpr
  isFalse : Nat → Nat → Bool

/-- An output logical tile: either a matched batch (position-list pairs over
a left/right buffered-tile pair) or an outer-completion batch of null-padded
rows from one buffered batch of one side. -/
inductive Output where
  | matched (leftIdx rightIdx : Nat) (pairs : List (Nat × Nat))
  | outerPad (sd : Side) (batchIdx : Nat) (rows : List Nat)
deriving DecidableEq

/-- Number of rows in an output tile. -/
def Output.rowCount : Output → Nat
  | .matched _ _ ps => ps.length
  | .outerPad _ _ rs => rs.length

/-- The distinct out-of-bounds / invalid-dereference situations the C++ code
can run into; reaching one models undefined behavior. -/
inductive UBKind where
  | nullPredicateDeref
  | castNotTupleValue
  | leftTileIndexOutOfBounds
  | rightTilesBackOnEmpty
deriving DecidableEq

/-- The mutable state of a `NestedLoopJoinExecutor` between `DExecute` calls,
plus the pull positions of the two children and two observation logs
(`pairedLog` records every tile pair handed to the pairwise matcher,
`events` records correlated-probe events). -/
structure JState where
  leftChildDone : Bool
  rightChildDone : Bool
  leftResultItr : Nat
  leftTiles : List Tile
  rightTiles : List Tile
  leftPulls : Nat
  rightPulls : Nat
  matchedLeft : List (Nat × Nat)
  matchedRight : List (Nat × Nat)
  rightBound : Nat
  rightPos : Nat
  emitCursor : Nat
  pairedLog : List (Nat × Nat)
  events : List Event
deriving DecidableEq

/-- State right after `DInit`: no child done, empty buffers, cursors at 0. -/
def initState : JState :=
  { leftChildDone := false
    rightChildDone := false
    leftResultItr := 0
    leftTiles := []
    rightTiles := []
    leftPulls := 0
    rightPulls := 0
    matchedLeft := []
    matchedRight := []
    rightBound := 0
    rightPos := 0
    emitCursor := 0
    pairedLog := []
    events := [] }

/-- Result of one `DExecute`-style call: the C++ `bool` return together with
the output tile set (if any) and the post-call state, or undefined behavior. -/
inductive CallRes where
  | ok (success : Bool) (out : Option Output) (st : JState)
  | ub (k : UBKind)
deriving DecidableEq

/-- Outcome of one iteration of the outer `for (;;)` loop: either the call
finishes with a result, or the loop continues with an updated state. -/
inductive BodyOut where
  | finish (r : CallRes)
  | again (st : JState)
deriving DecidableEq

/-- Modelled from the spec: `RecordMatchedLeftRow(batchIndex, rowIndex)` of
the abstract join executor (not part of the source under `src/`) sets the
row's bit in the left match bitset idempotently.  The bitset family is
modelled as the list of set (batch, row) positions. -/
def RecordMatchedLeftRow (m : List (Nat × Nat)) (b r : Nat) : List (Nat × Nat) :=
  if (b, r) ∈ m then m else (b, r) :: m

/-- Modelled from the spec: `RecordMatchedRightRow(batchIndex, rowIndex)` of
the abstract join executor (not part of the source under `src/`) sets the
row's bit in the right match bitset idempotently. -/
def RecordMatchedRightRow (m : List (Nat × Nat)) (b r : Nat) : List (Nat × Nat) :=
  if (b, r) ∈ m then m else (b, r) :: m

/-- `predicate_ != nullptr && Evaluate(...).IsFalse()`: a row pair is skipped
exactly when a predicate is configured and evaluates to false on it. -/
def predIsFalse (p : Option JPred) (i j : Nat) : Bool :=
  match p with
  | none => false
  | some q => q.isFalse i j

/-- Inner loop of the pairwise matcher (source lines 358-382 / 176-200): walk
the left tile's rows against the fixed right row `j`, skipping pairs whose
predicate evaluates to false and otherwise recording the left match and
appending the position pair. -/
def nljInner (p : Option JPred) (leftItr j : Nat) :
    List Nat → List (Nat × Nat) → Bool → List (Nat × Nat) →
    List (Nat × Nat) × Bool × List (Nat × Nat)
  | [], ml, hm, acc => (ml, hm, acc)
  | i :: rest, ml, hm, acc =>
    if predIsFalse p i j then
      nljInner p leftItr j rest ml hm acc
    else
      nljInner p leftItr j rest (RecordMatchedLeftRow ml leftItr i) true (acc ++ [(i, j)])

/-- Accumulated result of the pairwise matcher over a tile pair. -/
structure MatchOut where
  ml : List (Nat × Nat)
  mr : List (Nat × Nat)
  pairs : List (Nat × Nat)
deriving DecidableEq

/-- Outer loop of the pairwise matcher (source lines 355-390 / 173-208):
right rows outer, left rows inner; after each right row, record the right
match iff some left row produced a non-false predicate result. -/
def nljOuter (p : Option JPred) (leftItr rightIdx : Nat) (leftRows : List Nat) :
    List Nat → List (Nat × Nat) → List (Nat × Nat) → List (Nat × Nat) → MatchOut
  | [], ml, mr, acc => ⟨ml, mr, acc⟩
  | j :: rest, ml, mr, acc =>
    let r := nljInner p leftItr j leftRows ml false []
    let mr' := if r.2.1 then RecordMatchedRightRow mr rightIdx j else mr
    nljOuter p leftItr rightIdx leftRows rest r.1 mr' (acc ++ r.2.2)

/-- The pairwise matcher applied to one (left tile, right tile) pair, as in
the join-tile building block of both control loops. -/
def pairTiles (p : Option JPred) (leftItr rightIdx : Nat) (lt rt : Tile)
    (ml mr : List (Nat × Nat)) : MatchOut :=
  nljOuter p leftItr rightIdx lt rt ml mr []

/-- One unmatched-row group of the outer-completion emitter: the side and
index of a buffered batch together with its rows whose match bit is unset. -/
structure OuterGroup where
  sd : Side
  batchIdx : Nat
  rows : List Nat
deriving DecidableEq

/-- Rows of a buffered tile whose match bit is not set. -/
def unmatchedOf (m : List (Nat × Nat)) (bi : Nat) (t : Tile) : List Nat :=
  t.filter fun r => decide ((bi, r) ∉ m)

/-- Modelled from the spec: the per-batch unmatched-row groups the
outer-completion emitter walks, in order (left batches first when the join
type pads the left side, then right batches when it pads the right side). -/
def outerGroups (jt : JoinType) (st : JState) : List OuterGroup :=
  (if jt = .leftOuter ∨ jt = .fullOuter then
      (st.leftTiles.enum.map fun q => ⟨.lft, q.1, unmatchedOf st.matchedLeft q.1 q.2⟩)
    else [])
    ++
  (if jt = .rightOuter ∨ jt = .fullOuter then
      (st.rightTiles.enum.map fun q => ⟨.rgt, q.1, unmatchedOf st.matchedRight q.1 q.2⟩)
    else [])

/-- Find, starting at absolute index `c`, the first group of the given list
(whose head sits at absolute index `c`) that still has rows to emit. -/
def findGroup : List OuterGroup → Nat → Option (Nat × OuterGroup)
  | [], _ => none
  | g :: gs, c => if g.rows.isEmpty then findGroup gs (c + 1) else some (c, g)

/-- Modelled from the spec: `BuildOuterJoinOutput` of the abstract join
executor (not part of the source under `src/`).  It is a resumable emitter:
each call emits the next buffered batch's unmatched rows as one null-padded
output tile and advances the emission cursor, or returns the exhaustion
signal (`false`) once no unmatched rows remain; for inner joins it emits
nothing. -/
def buildOuterJoinOutput (jt : JoinType) (st : JState) : CallRes :=
  match findGroup ((outerGroups jt st).drop st.emitCursor) st.emitCursor with
  | some (i, g) =>
      .ok true (some (.outerPad g.sd g.batchIdx g.rows)) { st with emitCursor := i + 1 }
  | none => .ok false none { st with emitCursor := (outerGroups jt st).length }

/-- The shared "pick left tile" phase of both control loops (source lines
239-269 / 99-128): when the left child is already done advance the buffer
cursor (wrapping sets the advance-right flag); otherwise pull the left child,
either buffering a new tile or marking the left side done.  Returns the
updated state and the advance-right flag. -/
def pickLeft (leftInput : List Tile) (st : JState) : JState × Bool :=
  if st.leftChildDone then
    if st.leftResultItr + 1 ≥ st.leftTiles.length then
      ({ st with leftResultItr := 0 }, true)
    else
      ({ st with leftResultItr := st.leftResultItr + 1 }, false)
  else
    match leftInput.get? st.leftPulls with
    | none => ({ st with leftChildDone := true, leftResultItr := 0 }, true)
    | some t =>
        ({ st with leftPulls := st.leftPulls + 1,
                   leftTiles := st.leftTiles ++ [t],
                   leftResultItr := st.leftTiles.length }, false)

/-- Join-tile building and emission shared by both loops (source lines
344-399 / 162-217): run the pairwise matcher on the given tile pair, log the
tile pair, and either emit the output tile (if any pair was produced) or
continue the loop. -/
def pairAndEmit (p : Option JPred) (st : JState) (lt rt : Tile) : BodyOut :=
  let li := st.leftResultItr
  let ri := st.rightTiles.length - 1
  let m := pairTiles p li ri lt rt st.matchedLeft st.matchedRight
  let st' := { st with matchedLeft := m.ml, matchedRight := m.mr,
                       pairedLog := st.pairedLog ++ [(li, ri)] }
  if m.pairs.isEmpty then .again st' else .finish (.ok true (some (.matched li ri m.pairs)) st')

/-- The environment of the materializing control loop `Old_DExecute`: the two
children as the finite tile sequences they produce, the join predicate, and
the join type. -/
structure OldEnv where
  leftTiles : List Tile
  rightTiles : List Tile
  pred : Option JPred
  joinType : JoinType

/-- The join-tile phase of `Old_DExecute` (source lines 159-217): pick the
right buffer's most recent tile and the left buffer's tile at the cursor
(both vector accesses are unchecked in the source) and run the matcher. -/
def oldJoinPhase (env : OldEnv) (st : JState) : BodyOut :=
  match st.rightTiles.getLast?, st.leftTiles.get? st.leftResultItr with
  | some rt, some lt => pairAndEmit env.pred st lt rt
  | _, _ => .finish (.ub .leftTileIndexOutOfBounds)

/-- One iteration of the outer `for (;;)` loop of `Old_DExecute` (source
lines 84-218). -/
def oldBody (env : OldEnv) (st : JState) : BodyOut :=
  if st.leftChildDone ∧ st.rightChildDone then
    .finish (buildOuterJoinOutput env.joinType st)
  else
    let pick := pickLeft env.leftTiles st
    let st1 := pick.1
    if pick.2 ∨ st1.rightTiles.isEmpty then
      if st1.rightChildDone ∧ st1.rightTiles.isEmpty then
        .finish (buildOuterJoinOutput env.joinType st1)
      else
        match env.rightTiles.get? st1.rightPulls with
        | none => .finish (buildOuterJoinOutput env.joinType { st1 with rightChildDone := true })
        | some t =>
            let st2 := { st1 with rightPulls := st1.rightPulls + 1,
                                  rightTiles := st1.rightTiles ++ [t] }
            if st2.leftChildDone ∧ st2.leftTiles.isEmpty then
              .finish (buildOuterJoinOutput env.joinType st2)
            else oldJoinPhase env st2
    else oldJoinPhase env st1

/-- `Old_DExecute` as a fueled loop over `oldBody`; `none` means the fuel ran
out before the call returned. -/
def Old_DExecute (env : OldEnv) : Nat → JState → Option CallRes
  | 0, _ => none
  | fuel + 1, st =>
    match oldBody env st with
    | .finish r => some r
    | .again st' => Old_DExecute env fuel st'

/-- The state after one iteration of `Old_DExecute`'s loop, looking through
call boundaries: a call that returns hands its state to the next call, so the
run's state evolution is exactly the iteration of this function.  On
(modelled) undefined behavior the state is left unchanged. -/
def oldStep (env : OldEnv) (st : JState) : JState :=
  match oldBody env st with
  | .again st' => st'
  | .finish (.ok _ _ st') => st'
  | .finish (.ub _) => st

/-- The state of the `Old_DExecute` run after `n` loop iterations starting
from the freshly initialized executor. -/
def oldRun (env : OldEnv) : Nat → JState
  | 0 => initState
  | n + 1 => oldStep env (oldRun env n)

/-- The environment of the correlated-probe control loop `DExecute`: the left
child's tile sequence, the right child modelled as an index-scan-like
collaborator (whether it is an index scan, which tiles it returns for each
pushed bound, and which bound replacements it accepts), the predicate, the
row-value accessor, and the join type. -/
structure CorrEnv where
  leftTiles : List Tile
  rightIsIndexScan : Bool
  tilesFor : Nat → List Tile
  replaceOk : Nat → Nat → Bool
  pred : Option JPred
  getValue : Nat → Nat → Nat
  joinType : JoinType

/-- The inner right-child pull loop of `DExecute` (source lines 310-330):
buffer every tile the right child still returns for the current bound; on
exhaustion reset the right child's scan state if the left child is not done,
otherwise set the right-exhaustion flag.  The list argument is the suffix of
the right child's tiles for the current bound that its scan position has not
yet consumed. -/
def corrProbe (env : CorrEnv) : JState → List Tile → Sum CallRes JState
  | st, [] =>
    if st.leftChildDone = false then
      .inr { st with rightPos := 0, events := st.events ++ [.resetRight] }
    else
      .inr { st with rightChildDone := true, events := st.events ++ [.setRightDone] }
  | st, t :: rest =>
    let st' := { st with rightTiles := st.rightTiles ++ [t], rightPos := st.rightPos + 1 }
    if st'.leftChildDone ∧ st'.leftTiles.isEmpty then
      .inl (buildOuterJoinOutput env.joinType st')
    else corrProbe env st' rest

/-- Per-left-row probe of `DExecute` (source lines 273-330): dereference the
predicate, cast its left child to a tuple-value expression to obtain the
column id, read the row's value, push it as the right child's key bound when
the right child is an index scan (a rejected push returns `false`), then pull
the right child until exhaustion for this bound. -/
def corrRow (env : CorrEnv) (st : JState) (r : Nat) : Sum CallRes JState :=
  match env.pred with
  | none => .inl (.ub .nullPredicateDeref)
  | some p =>
    match p.left with
    | .other => .inl (.ub .castNotTupleValue)
    | .tve col =>
      let v := env.getValue r col
      let st0 := { st with events := st.events ++ [.probedRow r] }
      let pushed : Sum CallRes JState :=
        if env.rightIsIndexScan then
          if env.replaceOk col v then
            .inr { st0 with rightBound := v, events := st0.events ++ [.boundPushed col v] }
          else
            .inl (.ok false none { st0 with events := st0.events ++ [.replaceFailed] })
        else .inr st0
      match pushed with
      | .inl res => .inl res
      | .inr st1 =>
        if st1.rightChildDone ∧ st1.rightTiles.isEmpty then
          .inl (buildOuterJoinOutput env.joinType st1)
        else
          corrProbe env st1 ((env.tilesFor st1.rightBound).drop st1.rightPos)

/-- The loop over the current left tile's rows (source line 273): each row is
probed in batch order; any early return of a row's probe ends the call. -/
def corrRowLoop (env : CorrEnv) : JState → List Nat → Sum CallRes JState
  | st, [] => .inr st
  | st, r :: rest =>
    match corrRow env st r with
    | .inl res => .inl res
    | .inr st' => corrRowLoop env st' rest

/-- One iteration of the outer `for (;;)` loop of `DExecute` (source lines
226-400): pick the left tile (the buffered-tile access at the cursor is
unchecked), probe each of its rows against the right child, and pair the left
tile against the most recently buffered right tile (the `back()` access is
unchecked). -/
def corrBody (env : CorrEnv) (st : JState) : BodyOut :=
  if st.leftChildDone ∧ st.rightChildDone then
    .finish (buildOuterJoinOutput env.joinType st)
  else
    let pick := pickLeft env.leftTiles st
    let st1 := pick.1
    match st1.leftTiles.get? st1.leftResultItr with
    | none => .finish (.ub .leftTileIndexOutOfBounds)
    | some lt =>
      match corrRowLoop env st1 lt with
      | .inl res => .finish res
      | .inr st2 =>
        if (pick.2 ∨ st2.rightTiles.isEmpty) ∧ st2.rightChildDone ∧ st2.rightTiles.isEmpty then
          .finish (buildOuterJoinOutput env.joinType st2)
        else
          match st2.rightTiles.getLast? with
          | none => .finish (.ub .rightTilesBackOnEmpty)
          | some rt => pairAndEmit env.pred st2 lt rt

/-- `DExecute` (the correlated-probe control loop) as a fueled loop over
`corrBody`; `none` means the fuel ran out before the call returned. -/
def DExecute (env : CorrEnv) : Nat → JState → Option CallRes
  | 0, _ => none
  | fuel + 1, st =>
    match corrBody env st with
    | .finish r => some r
    | .again st' => DExecute env fuel st'

/-- Outputs of `n` successive `DExecute` calls (each with the given fuel),
threading the post-call state; stops early on fuel exhaustion or undefined
behavior. -/
def corrOutputs (env : CorrEnv) (fuel : Nat) : Nat → JState → List (Option Output)
  | 0, _ => []
  | n + 1, st =>
    match DExecute env fuel st with
    | some (.ok _ out st') => out :: corrOutputs env fuel n st'
    | _ => []

/-- All matched position pairs contained in a list of call outputs. -/
def matchedPairsOf : List (Option Output) → List (Nat × Nat)
  | [] => []
  | some (.matched _ _ ps) :: rest => ps ++ matchedPairsOf rest
  | _ :: rest => matchedPairsOf rest

/-- Modelled from the spec (correlated-probe correctness, spec section 4.5 /
section 8): the expected matched output of correlated probing — the union,
over each left row `r` in batch order, of `r` joined against exactly the rows
the right child returns for `r`'s pushed key bound, filtered by the
predicate. -/
def corrSpecUnion (env : CorrEnv) : List (Nat × Nat) :=
  env.leftTiles.flatten.flatMap fun r =>
    match env.pred with
    | some p =>
      match p.left with
      | .tve col =>
          ((env.tilesFor (env.getValue r col)).flatten.filter fun rr =>
            !p.isFalse r rr).map fun rr => (r, rr)
      | .other => []
    | none => []

/-- The `success` boolean of a call result (`false` for fuel exhaustion or
undefined behavior). -/
def resSuccess : Option CallRes → Bool
  | some (.ok b _ _) => b
  | _ => false

/-- The event log of the state a call result carries. -/
def resEvents : Option CallRes → List Event
  | some (.ok _ _ st) => st.events
  | _ => []

/-- The output tile of a call result. -/
def resOut : Option CallRes → Option Output
  | some (.ok _ out _) => out
  | _ => none

/-- Whether a call result is (modelled) undefined behavior. -/
def resIsUB : Option CallRes → Bool
  | some (.ub _) => true
  | _ => false

/-- Whether a call result is a successful return carrying no output rows —
the outcome the control-loop contract forbids. -/
def emptySuccess : Option CallRes → Bool
  | some (.ok true out _) =>
    match out with
    | some o => o.rowCount == 0
    | none => true
  | _ => false

/-! ### Matcher characterization -/

theorem mem_RecordMatchedLeftRow (m : List (Nat × Nat)) (b r : Nat) (x : Nat × Nat) :
    x ∈ RecordMatchedLeftRow m b r ↔ x = (b, r) ∨ x ∈ m := by
  unfold RecordMatchedLeftRow
  by_cases h : (b, r) ∈ m
  · simp only [if_pos h]
    constructor
    · exact fun hx => Or.inr hx
    · rintro (rfl | hx)
      · exact h
      · exact hx
  · simp [if_neg h]

theorem mem_RecordMatchedRightRow (m : List (Nat × Nat)) (b r : Nat) (x : Nat × Nat) :
    x ∈ RecordMatchedRightRow m b r ↔ x = (b, r) ∨ x ∈ m := by
  unfold RecordMatchedRightRow
  by_cases h : (b, r) ∈ m
  · simp only [if_pos h]
    constructor
    · exact fun hx => Or.inr hx
    · rintro (rfl | hx)
      · exact h
      · exact hx
  · simp [if_neg h]

theorem nljInner_spec (p : Option JPred) (li j : Nat) (rows : List Nat)
    (ml : List (Nat × Nat)) (hm : Bool) (acc : List (Nat × Nat)) :
    (nljInner p li j rows ml hm acc).2.2 =
        acc ++ (rows.filter fun i => !predIsFalse p i j).map (fun i => (i, j))
    ∧ (nljInner p li j rows ml hm acc).2.1 =
        (hm || rows.any fun i => !predIsFalse p i j)
    ∧ ∀ x, x ∈ (nljInner p li j rows ml hm acc).1 ↔
        x ∈ ml ∨ ∃ i, i ∈ rows ∧ predIsFalse p i j = false ∧ x = (li, i) := by
  induction rows generalizing ml hm acc with
  | nil => simp [nljInner]
  | cons i rest ih =>
    by_cases h : predIsFalse p i j
    · have := ih ml hm acc
      simp only [nljInner, h, if_pos rfl, if_true]
      refine ⟨?_, ?_, ?_⟩
      · simpa [List.filter_cons, h] using this.1
      · simpa [h] using this.2.1
      · intro x
        rw [this.2.2 x]
        constructor
        · rintro (hx | ⟨i', hi', hf, rfl⟩)
          · exact Or.inl hx
          · exact Or.inr ⟨i', List.mem_cons_of_mem _ hi', hf, rfl⟩
        · rintro (hx | ⟨i', hi', hf, rfl⟩)
          · exact Or.inl hx
          · rcases List.mem_cons.mp hi' with rfl | hi'
            · exact absurd h (by simp [hf])
            · exact Or.inr ⟨i', hi', hf, rfl⟩
    · have := ih (RecordMatchedLeftRow ml li i) true (acc ++ [(i, j)])
      simp only [nljInner, h, if_neg, if_false, Bool.false_eq_true, not_false_iff]
      refine ⟨?_, ?_, ?_⟩
      · rw [this.1]
        simp [List.filter_cons, h]
      · rw [this.2.1]
        simp [h, Bool.or_true]
      · intro x
        rw [this.2.2 x]
        have hb : predIsFalse p i j = false := by
          simpa using h
        constructor
        · rintro (hx | ⟨i', hi', hf, rfl⟩)
          · rcases (mem_RecordMatchedLeftRow ml li i x).mp hx with rfl | hx
            · exact Or.inr ⟨i, List.mem_cons_self _ _, hb, rfl⟩
            · exact Or.inl hx
          · exact Or.inr ⟨i', List.mem_cons_of_mem _ hi', hf, rfl⟩
        · rintro (hx | ⟨i', hi', hf, rfl⟩)
          · exact Or.inl ((mem_RecordMatchedLeftRow ml li i x).mpr (Or.inr hx))
          · rcases List.mem_cons.mp hi' with rfl | hi'
            · exact Or.inl ((mem_RecordMatchedLeftRow ml li i' _).mpr (Or.inl rfl))
            · exact Or.inr ⟨i', hi', hf, rfl⟩

theorem nljOuter_spec (p : Option JPred) (li ri : Nat) (lrows : List Nat)
    (rrows : List Nat) (ml mr acc : List (Nat × Nat)) :
    (nljOuter p li ri lrows rrows ml mr acc).pairs =
        acc ++ rrows.flatMap (fun j =>
          (lrows.filter fun i => !predIsFalse p i j).map fun i => (i, j))
    ∧ (∀ x, x ∈ (nljOuter p li ri lrows rrows ml mr acc).ml ↔
        x ∈ ml ∨ ∃ i, i ∈ lrows ∧ x = (li, i) ∧ ∃ j, j ∈ rrows ∧ predIsFalse p i j = false)
    ∧ (∀ x, x ∈ (nljOuter p li ri lrows rrows ml mr acc).mr ↔
        x ∈ mr ∨ ∃ j, j ∈ rrows ∧ x = (ri, j) ∧ ∃ i, i ∈ lrows ∧ predIsFalse p i j = false) := by
  induction rrows generalizing ml mr acc with
  | nil => simp [nljOuter]
  | cons j rest ih =>
    have hin := nljInner_spec p li j lrows ml false []
    simp only [nljOuter]
    set r := nljInner p li j lrows ml false [] with hr
    have ih' := ih r.1 (if r.2.1 then RecordMatchedRightRow mr ri j else mr) (acc ++ r.2.2)
    refine ⟨?_, ?_, ?_⟩
    · rw [ih'.1, hin.1]
      simp [List.flatMap_cons]
    · intro x
      rw [ih'.2.1 x, hin.2.2 x]
      constructor
      · rintro ((hx | ⟨i, hi, hf, rfl⟩) | ⟨i, hi, rfl, j', hj', hf⟩)
        · exact Or.inl hx
        · exact Or.inr ⟨i, hi, rfl, j, List.mem_cons_self _ _, hf⟩
        · exact Or.inr ⟨i, hi, rfl, j', List.mem_cons_of_mem _ hj', hf⟩
      · rintro (hx | ⟨i, hi, rfl, j', hj', hf⟩)
        · exact Or.inl (Or.inl hx)
        · rcases List.mem_cons.mp hj' with rfl | hj'
          · exact Or.inl (Or.inr ⟨i, hi, hf, rfl⟩)
          · exact Or.inr ⟨i, hi, rfl, j', hj', hf⟩
    · intro x
      rw [ih'.2.2 x]
      have hmr : ∀ y, (y ∈ (if r.2.1 then RecordMatchedRightRow mr ri j else mr)) ↔
          y ∈ mr ∨ (y = (ri, j) ∧ ∃ i, i ∈ lrows ∧ predIsFalse p i j = false) := by
        intro y
        rw [hin.2.1]
        by_cases hany : (lrows.any fun i => !predIsFalse p i j) = true
        · simp only [hany, Bool.false_or, if_pos rfl, if_true,
            mem_RecordMatchedRightRow]
          rcases List.any_eq_true.mp hany with ⟨i, hi, hfi⟩
          constructor
          · rintro (rfl | hy)
            · exact Or.inr ⟨rfl, i, hi, by simpa using hfi⟩
            · exact Or.inl hy
          · rintro (hy | ⟨rfl, _⟩)
            · exact Or.inr hy
            · exact Or.inl rfl
        · simp only [hany, Bool.false_or, if_neg, if_false]
          constructor
          · exact fun hy => Or.inl hy
          · rintro (hy | ⟨rfl, i, hi, hfi⟩)
            · exact hy
            · exact absurd (List.any_eq_true.mpr ⟨i, hi, by simp [hfi]⟩) hany
      rw [hmr x]
      constructor
      · rintro ((hx | ⟨rfl, i, hi, hf⟩) | ⟨j', hj', rfl, i, hi, hf⟩)
        · exact Or.inl hx
        · exact Or.inr ⟨j, List.mem_cons_self _ _, rfl, i, hi, hf⟩
        · exact Or.inr ⟨j', List.mem_cons_of_mem _ hj', rfl, i, hi, hf⟩
      · rintro (hx | ⟨j', hj', rfl, i, hi, hf⟩)
        · exact Or.inl (Or.inl hx)
        · rcases List.mem_cons.mp hj' with rfl | hj'
          · exact Or.inl (Or.inr ⟨rfl, i, hi, hf⟩)
          · exact Or.inr ⟨j', hj', rfl, i, hi, hf⟩

/-- `BuildOuterJoinOutput` never produces undefined behavior: it always
returns a call result. -/
theorem buildOuter_shape (jt : JoinType) (st : JState) :
    ∃ b o s, buildOuterJoinOutput jt st = .ok b o s := by
  unfold buildOuterJoinOutput
  rcases h : findGroup ((outerGroups jt st).drop st.emitCursor) st.emitCursor with _ | ⟨i, g⟩
  · simp only [h]
    exact ⟨_, _, _, rfl⟩
  · simp only [h]
    exact ⟨_, _, _, rfl⟩

theorem finish_outer_shape (jt : JoinType) (st : JState) :
    ∃ b o s, BodyOut.finish (buildOuterJoinOutput jt st) = .finish (.ok b o s) := by
  obtain ⟨b, o, s, h⟩ := buildOuter_shape jt st
  exact ⟨b, o, s, by rw [h]⟩

/-- C3: characterization of the pairwise matcher on a tile pair.  For every
row pair (left row `i`, right row `j`) in iteration order (right rows outer,
left rows inner): if the configured join predicate evaluates to false the
pair is skipped with no side effects; otherwise left row `i` is marked
matched and `(i, j)` is appended to the position-list pair, and right row `j`
is marked matched if and only if at least one left row of the batch produced
a non-false result against it. -/
theorem c3_pairwise_matcher_characterization (p : Option JPred) (li ri : Nat)
    (lt rt : Tile) (ml mr : List (Nat × Nat)) :
    (pairTiles p li ri lt rt ml mr).pairs =
        rt.flatMap (fun j => (lt.filter fun i => !predIsFalse p i j).map fun i => (i, j))
    ∧ (∀ x, x ∈ (pairTiles p li ri lt rt ml mr).ml ↔
        x ∈ ml ∨ ∃ i, i ∈ lt ∧ x = (li, i) ∧ ∃ j, j ∈ rt ∧ predIsFalse p i j = false)
    ∧ (∀ x, x ∈ (pairTiles p li ri lt rt ml mr).mr ↔
        x ∈ mr ∨ ∃ j, j ∈ rt ∧ x = (ri, j) ∧ ∃ i, i ∈ lt ∧ predIsFalse p i j = false) := by
  have h := nljOuter_spec p li ri lt rt ml mr []
  exact ⟨by simpa using h.1, h.2.1, h.2.2⟩

/-- C8: match marking is idempotent — recording the same (batch, row) match
twice, on either side, leaves the match-bitset state identical to recording
it once. -/
theorem c8_match_marking_idempotent (m m' : List (Nat × Nat)) (b r b' r' : Nat) :
    RecordMatchedLeftRow (RecordMatchedLeftRow m b r) b r = RecordMatchedLeftRow m b r
    ∧ RecordMatchedRightRow (RecordMatchedRightRow m' b' r') b' r' =
        RecordMatchedRightRow m' b' r' := by
  have hidl : ∀ (s : List (Nat × Nat)) (c d : Nat), (c, d) ∈ s →
      RecordMatchedLeftRow s c d = s := by
    intro s c d h
    unfold RecordMatchedLeftRow
    rw [if_pos h]
  have hidr : ∀ (s : List (Nat × Nat)) (c d : Nat), (c, d) ∈ s →
      RecordMatchedRightRow s c d = s := by
    intro s c d h
    unfold RecordMatchedRightRow
    rw [if_pos h]
  constructor
  · exact hidl _ _ _ ((mem_RecordMatchedLeftRow m b r (b, r)).mpr (Or.inl rfl))
  · exact hidr _ _ _ ((mem_RecordMatchedRightRow m' b' r' (b', r')).mpr (Or.inl rfl))

/-- C9: on every iteration of `DExecute` that reaches the per-left-row probe
loop, the configured predicate is dereferenced unconditionally and its left
operand cast to a tuple-value expression; so a null predicate (or one whose
left child is not a tuple-value expression) is undefined behavior there, even
though the pairwise matcher itself handles a null predicate by passing every
pair. -/
theorem c9_predicate_deref_precondition (env : CorrEnv) (r : Nat) (rs : List Nat)
    (ts : List Tile) (fuel : Nat) (h1 : env.leftTiles = (r :: rs) :: ts) :
    (env.pred = none →
      DExecute env (fuel + 1) initState = some (.ub .nullPredicateDeref))
    ∧ (∀ p, env.pred = some p → p.left = .other →
      DExecute env (fuel + 1) initState = some (.ub .castNotTupleValue))
    ∧ (∀ li ri lt rt ml mr, (pairTiles (none : Option JPred) li ri lt rt ml mr).pairs =
        rt.flatMap fun j => lt.map fun i => (i, j)) := by
  refine ⟨?_, ?_, ?_⟩
  · intro h2
    simp [DExecute, corrBody, pickLeft, initState, h1, corrRowLoop, corrRow, h2]
  · intro p h2 h3
    simp [DExecute, corrBody, pickLeft, initState, h1, corrRowLoop, corrRow, h2, h3]
  · intro li ri lt rt ml mr
    have h := (c3_pairwise_matcher_characterization none li ri lt rt ml mr).1
    simpa [predIsFalse] using h

/-- Every branch of one `Old_DExecute` loop iteration returns cleanly (no
out-of-bounds access) when the left input is empty and no left tile is
buffered: the emptiness guards fire before the tile accesses. -/
theorem oldBody_left_empty (env : OldEnv) (st : JState)
    (hO : env.leftTiles = []) (hS : st.leftTiles = []) :
    ∃ b o s, oldBody env st = .finish (.ok b o s) := by
  unfold oldBody
  by_cases hd : st.leftChildDone ∧ st.rightChildDone
  · simp only [if_pos hd]
    exact finish_outer_shape _ _
  · simp only [if_neg hd]
    have hpick : pickLeft env.leftTiles st =
        (if st.leftChildDone then { st with leftResultItr := 0 }
         else { st with leftChildDone := true, leftResultItr := 0 }, true) := by
      unfold pickLeft
      by_cases hld : st.leftChildDone
      · simp [hld, hS]
      · simp [hld, hO]
    rw [hpick]
    simp only [true_or, if_true]
    by_cases hld : st.leftChildDone
    · simp only [if_pos hld]
      by_cases hre : st.rightChildDone = true ∧ st.rightTiles.isEmpty = true
      · rw [if_pos hre]
        exact finish_outer_shape _ _
      · rw [if_neg hre]
        rcases hr : env.rightTiles.get? st.rightPulls with _ | t
        · simp only [hr]
          exact finish_outer_shape _ _
        · simp only [hr]
          rw [if_pos ⟨hld, by rw [hS]; rfl⟩]
          exact finish_outer_shape _ _
    · simp only [if_neg hld]
      by_cases hre : st.rightChildDone = true ∧ st.rightTiles.isEmpty = true
      · rw [if_pos hre]
        exact finish_outer_shape _ _
      · rw [if_neg hre]
        rcases hr : env.rightTiles.get? st.rightPulls with _ | t
        · simp only [hr]
          exact finish_outer_shape _ _
        · simp only [hr]
          rw [if_pos ⟨by trivial, by rw [hS]; rfl⟩]
          exact finish_outer_shape _ _

/-- C10: `DExecute` indexes the left buffered-tile list at the cursor without
an emptiness check, so an empty left input (left child exhausted on its very
first pull) is an out-of-bounds access; `Old_DExecute` performs this access
only after its emptiness guards and returns cleanly on the same input. -/
theorem c10_left_empty_precondition (envC : CorrEnv) (envO : OldEnv) (st : JState)
    (fuel : Nat) (hC : envC.leftTiles = []) (hO : envO.leftTiles = [])
    (hS : st.leftTiles = []) :
    DExecute envC (fuel + 1) initState = some (.ub .leftTileIndexOutOfBounds)
    ∧ resIsUB (Old_DExecute envO fuel st) = false := by
  constructor
  · simp [DExecute, corrBody, pickLeft, initState, hC]
  · rcases fuel with _ | fuel
    · simp [Old_DExecute, resIsUB]
    · obtain ⟨b, o, s, h⟩ := oldBody_left_empty envO st hO hS
      simp [Old_DExecute, h, resIsUB]

/-- The `rightChildDone` flag of the state a call result carries. -/
def resRightDone : Option CallRes → Bool
  | some (.ok _ _ st) => st.rightChildDone
  | _ => false

/-! ### Concrete test fixtures -/

/-- Row values for the correlated-probe scenario: left rows 10 and 11 carry
keys 5 and 7; right rows 20 and 21 carry keys 5 and 7. -/
def gv4 (r : Nat) : Nat :=
  if r = 10 then 5 else if r = 11 then 7 else if r = 20 then 5 else if r = 21 then 7 else 0

/-- Correlated-probe scenario: two single-row left batches with keys 5 and 7,
an index-scan right child returning one single-row batch per key, and the
single-column equality predicate. -/
def env4 : CorrEnv :=
  { leftTiles := [[10], [11]]
    rightIsIndexScan := true
    tilesFor := fun v => if v = 5 then [[20]] else if v = 7 then [[21]] else []
    replaceOk := fun _ _ => true
    pred := some ⟨.tve 0, fun l r => !(gv4 l == gv4 r)⟩
    getValue := fun r _ => gv4 r
    joinType := .inner }

/-- Scenario for the reset-versus-done branch: the right child returns no
tiles for any bound, and the predicate filters every pair. -/
def envC5 : CorrEnv :=
  { leftTiles := [[10, 11]]
    rightIsIndexScan := true
    tilesFor := fun _ => []
    replaceOk := fun _ _ => true
    pred := some ⟨.tve 0, fun _ _ => true⟩
    getValue := fun _ _ => 0
    joinType := .inner }

/-- Mid-run state for the reset-versus-done scenario: the left child has
reported exhaustion, one two-row left batch and one right batch are
buffered. -/
def stC5 : JState :=
  { initState with leftChildDone := true, leftTiles := [[10, 11]], leftPulls := 1,
                   rightTiles := [[99]], rightPulls := 1 }

/-- Scenario where the right child is not an index scan (it cannot accept a
pushed bound) but still produces a joinable tile. -/
def envC6 : CorrEnv :=
  { leftTiles := [[10]]
    rightIsIndexScan := false
    tilesFor := fun _ => [[20]]
    replaceOk := fun _ _ => false
    pred := some ⟨.tve 0, fun _ _ => false⟩
    getValue := fun _ _ => 5
    joinType := .inner }

/-- `envC6` with an index-scan right child that rejects every bound push. -/
def envC6push : CorrEnv :=
  { envC6 with rightIsIndexScan := true, replaceOk := fun _ _ => false }

/-! ### C4: correlated-probe pairing -/

/-- C4 (code bug): in correlated-probe mode the control loop buffers every
probe's tiles but pairs the whole left batch only against the most recently
buffered right tile, so rows produced for one left row's probe are paired
with other left rows, and re-probing on the re-pairing pass duplicates
output: on `env4` the matched pair (10, 20) is emitted twice across the run,
while the spec's per-row probe union contains it exactly once. -/
theorem c4_correlated_probe_bug :
    corrOutputs env4 6 4 initState =
      [some (.matched 0 0 [(10, 20)]), some (.matched 1 1 [(11, 21)]),
       some (.matched 0 2 [(10, 20)]), none]
    ∧ (matchedPairsOf (corrOutputs env4 6 4 initState)).count (10, 20) = 2
    ∧ (corrSpecUnion env4).count (10, 20) = 1 := by decide

/-! ### C5: reset versus permanent right exhaustion -/

/-- C5 (amended): when the right child reports exhaustion for the current
bound, the scan state is reset exactly when the left child's exhaustion flag
is still unset, and the right-exhaustion flag is set exactly when it is set —
regardless of whether more left rows remain to be probed. -/
theorem c5_reset_iff_left_not_done (env : CorrEnv) (tiles : List Tile) :
    ∀ st st' : JState, corrProbe env st tiles = .inr st' →
    (st.leftChildDone = false →
        st'.rightChildDone = st.rightChildDone ∧ st'.rightPos = 0 ∧
        st'.events = st.events ++ [.resetRight])
    ∧ (st.leftChildDone = true →
        st'.rightChildDone = true ∧ st'.rightPos = st.rightPos + tiles.length ∧
        st'.events = st.events ++ [.setRightDone]) := by
  induction tiles with
  | nil =>
    intro st st' h
    by_cases hld : st.leftChildDone = true
    · simp only [corrProbe, hld, Bool.true_eq_false, if_neg, if_false,
        Sum.inr.injEq, not_false_iff] at h
      subst h
      constructor
      · intro hc
        rw [hld] at hc
        exact absurd hc (by simp)
      · intro _
        exact ⟨rfl, by simp, rfl⟩
    · have hld' : st.leftChildDone = false := by
        revert hld
        cases st.leftChildDone <;> simp
      simp only [corrProbe, hld', if_pos, if_true, Sum.inr.injEq] at h
      subst h
      constructor
      · intro _
        exact ⟨rfl, rfl, rfl⟩
      · intro hc
        rw [hld'] at hc
        exact absurd hc (by simp)
  | cons t rest ih =>
    intro st st' h
    simp only [corrProbe] at h
    by_cases he : st.leftChildDone = true ∧ st.leftTiles.isEmpty = true
    · rw [if_pos he] at h
      exact absurd h (by simp)
    · rw [if_neg he] at h
      have hrec := ih _ st' h
      constructor
      · intro hld
        exact hrec.1 hld
      · intro hld
        obtain ⟨a, b, c⟩ := hrec.2 hld
        refine ⟨a, ?_, c⟩
        simp only [List.length_cons]
        simp only at b
        omega

/-- State used to witness the amended C5 theorem. -/
def c5WitnessState : JState := { initState with events := [.resetRight] }

/-- Witness for the amended C5 theorem at a concrete input: the left child is
not done, so exhaustion of the right child resets its scan state. -/
theorem c5_reset_iff_left_not_done_witness :
    (initState.leftChildDone = false →
        c5WitnessState.rightChildDone = initState.rightChildDone ∧
        c5WitnessState.rightPos = 0 ∧
        c5WitnessState.events = initState.events ++ [.resetRight])
    ∧ (initState.leftChildDone = true →
        c5WitnessState.rightChildDone = true ∧
        c5WitnessState.rightPos = initState.rightPos + ([] : List Tile).length ∧
        c5WitnessState.events = initState.events ++ [.setRightDone]) :=
  c5_reset_iff_left_not_done envC5 [] initState c5WitnessState (by decide)

/-- C5 (counterexample to the claim as stated): on `envC5` from `stC5` the
right child exhausts during row 10's probe while row 11 still remains to be
probed, yet the scan state is not reset — the right-exhaustion flag is set
instead, because the code branches on the left child's exhaustion flag, not
on whether left rows remain. -/
theorem c5_counterexample :
    resEvents (DExecute envC5 3 stC5) =
      [.probedRow 10, .boundPushed 0 0, .setRightDone,
       .probedRow 11, .boundPushed 0 0, .setRightDone]
    ∧ Event.resetRight ∉ resEvents (DExecute envC5 3 stC5)
    ∧ resRightDone (DExecute envC5 3 stC5) = true := by decide

/-! ### C6: pushdown failure handling -/

/-- The per-left-row probe with the bound-push block removed entirely: used
to state that for a right child that is not an index scan, `DExecute`
silently skips the push (instead of failing as the claim states). -/
def corrRowNoPush (env : CorrEnv) (st : JState) (r : Nat) : Sum CallRes JState :=
  match env.pred with
  | none => .inl (.ub .nullPredicateDeref)
  | some p =>
    match p.left with
    | .other => .inl (.ub .castNotTupleValue)
    | .tve _ =>
      let st0 := { st with events := st.events ++ [.probedRow r] }
      if st0.rightChildDone ∧ st0.rightTiles.isEmpty then
        .inl (buildOuterJoinOutput env.joinType st0)
      else corrProbe env st0 ((env.tilesFor st0.rightBound).drop st0.rightPos)

/-- C6 (amended): the bound push is attempted only when the right child is an
index-scan node — a rejected push then fails the call — while a right child
that does not support bound replacement is silently skipped: the probe for
that row proceeds with no push and no error. -/
theorem c6_push_only_for_index_scan (env1 env2 : CorrEnv) (st1 st2 : JState)
    (r1 r2 : Nat) (p : JPred) (col : Nat)
    (h1 : env1.rightIsIndexScan = false)
    (h2 : env2.rightIsIndexScan = true) (hp : env2.pred = some p)
    (hl : p.left = .tve col)
    (hrep : env2.replaceOk col (env2.getValue r2 col) = false) :
    corrRow env1 st1 r1 = corrRowNoPush env1 st1 r1
    ∧ corrRow env2 st2 r2 = .inl (.ok false none
        { st2 with events := (st2.events ++ [.probedRow r2]) ++ [.replaceFailed] }) := by
  constructor
  · unfold corrRow corrRowNoPush
    rcases hq : env1.pred with _ | q
    · simp only [hq]
    · simp only [hq]
      rcases hql : q.left with col1 | _
      · simp only [hql, h1, Bool.false_eq_true, if_neg, if_false, not_false_iff]
      · simp only [hql]
  · unfold corrRow
    simp only [hp, hl, h2, hrep, if_pos, if_true, Bool.false_eq_true, if_neg, if_false,
      not_false_iff]

/-- Witness for the amended C6 theorem at concrete inputs. -/
theorem c6_push_only_for_index_scan_witness :
    corrRow envC6 initState 10 = corrRowNoPush envC6 initState 10
    ∧ corrRow envC6push initState 10 = .inl (.ok false none
        { initState with events := (initState.events ++ [.probedRow 10]) ++ [.replaceFailed] }) :=
  c6_push_only_for_index_scan envC6 envC6push initState initState 10 10
    ⟨.tve 0, fun _ _ => false⟩ 0 rfl rfl rfl rfl rfl

/-- C6 (counterexample to the claim as stated): with a right child that does
not support bound replacement (`envC6.rightIsIndexScan = false`), the call
does not fail — it succeeds with a matched output batch, and the event log
shows the probe ran with no push and no push failure. -/
theorem c6_counterexample :
    envC6.rightIsIndexScan = false
    ∧ resSuccess (DExecute envC6 2 initState) = true
    ∧ resOut (DExecute envC6 2 initState) = some (.matched 0 0 [(10, 20)])
    ∧ resEvents (DExecute envC6 2 initState) = [.probedRow 10, .resetRight] := by decide

/-- `envC5` with no configured join predicate. -/
def env9 : CorrEnv := { envC5 with pred := none }

/-- Witness for C9 at a concrete input: with a null predicate and a nonempty
first left tile, `DExecute` dereferences the null predicate. -/
theorem c9_predicate_deref_precondition_witness :
    DExecute env9 1 initState = some (.ub .nullPredicateDeref) :=
  (c9_predicate_deref_precondition env9 10 [11] [] 0 rfl).1 rfl

/-- Correlated environment with an empty left input. -/
def envC10 : CorrEnv :=
  { leftTiles := []
    rightIsIndexScan := true
    tilesFor := fun _ => []
    replaceOk := fun _ _ => true
    pred := some ⟨.tve 0, fun _ _ => false⟩
    getValue := fun _ _ => 0
    joinType := .inner }

/-- Materializing environment with an empty left input. -/
def envO10 : OldEnv :=
  { leftTiles := [], rightTiles := [[4]], pred := none, joinType := .inner }

/-- Witness for C10 at concrete inputs: the correlated loop hits the
out-of-bounds access on an empty left input while the materializing loop
returns cleanly. -/
theorem c10_left_empty_precondition_witness :
    DExecute envC10 1 initState = some (.ub .leftTileIndexOutOfBounds)
    ∧ resIsUB (Old_DExecute envO10 3 initState) = false :=
  c10_left_empty_precondition envC10 envO10 initState 3 rfl rfl rfl

/-! ### C2: a call never returns success with an empty output batch -/

/-- A group found by `findGroup` still has rows to emit. -/
theorem findGroup_rows_ne (l : List OuterGroup) (c i : Nat) (g : OuterGroup)
    (h : findGroup l c = some (i, g)) : g.rows.isEmpty = false := by
  induction l generalizing c with
  | nil => simp [findGroup] at h
  | cons a as ih =>
    by_cases ha : a.rows.isEmpty
    · rw [findGroup, if_pos ha] at h
      exact ih (c + 1) h
    · rw [findGroup, if_neg ha] at h
      rcases h with ⟨rfl, rfl⟩
      simpa using ha

/-- A successful outer-completion emission carries a nonempty output tile. -/
theorem buildOuter_true_nonempty (jt : JoinType) (st : JState) (out : Option Output)
    (st' : JState) (h : buildOuterJoinOutput jt st = .ok true out st') :
    ∃ o, out = some o ∧ o.rowCount ≠ 0 := by
  unfold buildOuterJoinOutput at h
  rcases hf : findGroup ((outerGroups jt st).drop st.emitCursor) st.emitCursor with _ | ⟨i, g⟩
  · rw [hf] at h
    simp at h
  · rw [hf] at h
    simp only [CallRes.ok.injEq] at h
    obtain ⟨-, hout, -⟩ := h
    refine ⟨.outerPad g.sd g.batchIdx g.rows, hout.symm, ?_⟩
    have hne := findGroup_rows_ne _ _ _ _ hf
    simp only [Output.rowCount]
    intro hlen
    rw [List.length_eq_zero] at hlen
    rw [hlen] at hne
    simp at hne

/-- A `pairAndEmit` that finishes the call emits a nonempty matched batch. -/
theorem pairAndEmit_finish (p : Option JPred) (st : JState) (lt rt : Tile)
    (r : CallRes) (h : pairAndEmit p st lt rt = .finish r) :
    ∃ ps st', ps ≠ [] ∧
      r = .ok true (some (.matched st.leftResultItr (st.rightTiles.length - 1) ps)) st' := by
  unfold pairAndEmit at h
  by_cases he : (pairTiles p st.leftResultItr (st.rightTiles.length - 1) lt rt
      st.matchedLeft st.matchedRight).pairs.isEmpty
  · rw [if_pos he] at h
    simp at h
  · rw [if_neg he] at h
    simp only [BodyOut.finish.injEq] at h
    refine ⟨_, _, ?_, h.symm⟩
    intro hnil
    rw [List.isEmpty_iff] at he
    exact he hnil

/-- Every early return of the inner right-pull loop is an outer-completion
result. -/
theorem corrProbe_inl (env : CorrEnv) (tiles : List Tile) :
    ∀ st res, corrProbe env st tiles = .inl res →
    ∃ st0, res = buildOuterJoinOutput env.joinType st0 := by
  induction tiles with
  | nil =>
    intro st res h
    by_cases hld : st.leftChildDone = false
    · simp [corrProbe, hld] at h
    · simp only [corrProbe, hld, if_neg, if_false] at h
      simp at h
  | cons t rest ih =>
    intro st res h
    simp only [corrProbe] at h
    by_cases he : st.leftChildDone = true ∧ st.leftTiles.isEmpty = true
    · rw [if_pos he] at h
      simp only [Sum.inl.injEq] at h
      exact ⟨_, h.symm⟩
    · rw [if_neg he] at h
      exact ih _ res h

/-- Every early return of a single-row probe is an outer-completion result, a
plain failure with no output, or undefined behavior. -/
theorem corrRow_inl (env : CorrEnv) (st : JState) (r : Nat) (res : CallRes)
    (h : corrRow env st r = .inl res) :
    (∃ k, res = .ub k) ∨ (∃ st0, res = .ok false none st0)
    ∨ (∃ st0, res = buildOuterJoinOutput env.joinType st0) := by
  unfold corrRow at h
  rcases hq : env.pred with _ | q
  · rw [hq] at h
    simp only [Sum.inl.injEq] at h
    exact Or.inl ⟨_, h.symm⟩
  · rw [hq] at h
    simp only [] at h
    rcases hql : q.left with col | _
    · rw [hql] at h
      simp only [] at h
      by_cases his : env.rightIsIndexScan = true
      · rw [if_pos his] at h
        by_cases hrep : env.replaceOk col (env.getValue r col) = true
        · rw [if_pos hrep] at h
          simp only [] at h
          by_cases hre : st.rightChildDone = true ∧ st.rightTiles.isEmpty = true
          · rw [if_pos hre] at h
            simp only [Sum.inl.injEq] at h
            exact Or.inr (Or.inr ⟨_, h.symm⟩)
          · rw [if_neg hre] at h
            rcases corrProbe_inl env _ _ res h with ⟨st0, hst0⟩
            exact Or.inr (Or.inr ⟨st0, hst0⟩)
        · rw [if_neg hrep] at h
          simp only [Sum.inl.injEq] at h
          exact Or.inr (Or.inl ⟨_, h.symm⟩)
      · rw [if_neg his] at h
        simp only [] at h
        by_cases hre : st.rightChildDone = true ∧ st.rightTiles.isEmpty = true
        · rw [if_pos hre] at h
          simp only [Sum.inl.injEq] at h
          exact Or.inr (Or.inr ⟨_, h.symm⟩)
        · rw [if_neg hre] at h
          rcases corrProbe_inl env _ _ res h with ⟨st0, hst0⟩
          exact Or.inr (Or.inr ⟨st0, hst0⟩)
    · rw [hql] at h
      simp only [Sum.inl.injEq] at h
      exact Or.inl ⟨_, h.symm⟩

/-- Early returns of the per-left-row loop have the same shapes as those of a
single-row probe. -/
theorem corrRowLoop_inl (env : CorrEnv) (rows : List Nat) :
    ∀ st res, corrRowLoop env st rows = .inl res →
    (∃ k, res = .ub k) ∨ (∃ st0, res = .ok false none st0)
    ∨ (∃ st0, res = buildOuterJoinOutput env.joinType st0) := by
  induction rows with
  | nil =>
    intro st res h
    simp [corrRowLoop] at h
  | cons r rest ih =>
    intro st res h
    simp only [corrRowLoop] at h
    rcases hr : corrRow env st r with res' | st'
    · rw [hr] at h
      simp only [Sum.inl.injEq] at h
      subst h
      exact corrRow_inl env st r res' hr
    · rw [hr] at h
      exact ih st' res h

/-- A join-phase call of the materializing loop that finishes successfully
emits a nonempty matched batch. -/
theorem oldJoinPhase_ok_true (env : OldEnv) (st2 : JState) (out : Option Output)
    (st' : JState) (h : oldJoinPhase env st2 = .finish (.ok true out st')) :
    ∃ o, out = some o ∧ o.rowCount ≠ 0 := by
  unfold oldJoinPhase at h
  rcases hgl : st2.rightTiles.getLast? with _ | rt <;>
    rcases hgt : st2.leftTiles.get? st2.leftResultItr with _ | lt <;>
    rw [hgl, hgt] at h
  · simp at h
  · simp at h
  · simp at h
  · obtain ⟨ps, stx, hne, hr⟩ := pairAndEmit_finish env.pred st2 lt rt _ h
    simp only [CallRes.ok.injEq] at hr
    obtain ⟨-, hout, -⟩ := hr
    refine ⟨_, hout, ?_⟩
    simp only [Output.rowCount]
    intro hlen
    exact hne (List.length_eq_zero.mp hlen)

/-- A `corrBody` iteration that finishes with success carries a nonempty
output tile. -/
theorem corrBody_ok_true (env : CorrEnv) (st : JState) (out : Option Output)
    (st' : JState) (h : corrBody env st = .finish (.ok true out st')) :
    ∃ o, out = some o ∧ o.rowCount ≠ 0 := by
  unfold corrBody at h
  by_cases hd : st.leftChildDone = true ∧ st.rightChildDone = true
  · rw [if_pos hd] at h
    simp only [BodyOut.finish.injEq] at h
    exact buildOuter_true_nonempty _ _ _ _ h
  · rw [if_neg hd] at h
    simp only [] at h
    rcases hg : (pickLeft env.leftTiles st).1.leftTiles.get?
        (pickLeft env.leftTiles st).1.leftResultItr with _ | lt
    · rw [hg] at h
      simp at h
    · rw [hg] at h
      simp only [] at h
      rcases hrl : corrRowLoop env (pickLeft env.leftTiles st).1 lt with res | st2
      · rw [hrl] at h
        simp only [BodyOut.finish.injEq] at h
        rcases corrRowLoop_inl env lt _ res hrl with ⟨k, hk⟩ | ⟨st0, h0⟩ | ⟨st0, h0⟩
        · rw [hk] at h
          cases h
        · rw [h0] at h
          simp at h
        · rw [h0] at h
          exact buildOuter_true_nonempty _ _ _ _ h
      · rw [hrl] at h
        simp only [] at h
        by_cases hc : ((pickLeft env.leftTiles st).2 = true ∨ st2.rightTiles.isEmpty = true)
            ∧ st2.rightChildDone = true ∧ st2.rightTiles.isEmpty = true
        · rw [if_pos hc] at h
          simp only [BodyOut.finish.injEq] at h
          exact buildOuter_true_nonempty _ _ _ _ h
        · rw [if_neg hc] at h
          rcases hgl : st2.rightTiles.getLast? with _ | rt
          · rw [hgl] at h
            simp at h
          · rw [hgl] at h
            obtain ⟨ps, stx, hne, hr⟩ := pairAndEmit_finish env.pred st2 lt rt _ h
            simp only [CallRes.ok.injEq] at hr
            obtain ⟨-, hout, -⟩ := hr
            refine ⟨_, hout, ?_⟩
            simp only [Output.rowCount]
            intro hlen
            exact hne (List.length_eq_zero.mp hlen)

/-- An `oldBody` iteration that finishes with success carries a nonempty
output tile. -/
theorem oldBody_ok_true (env : OldEnv) (st : JState) (out : Option Output)
    (st' : JState) (h : oldBody env st = .finish (.ok true out st')) :
    ∃ o, out = some o ∧ o.rowCount ≠ 0 := by
  unfold oldBody at h
  by_cases hd : st.leftChildDone = true ∧ st.rightChildDone = true
  · rw [if_pos hd] at h
    simp only [BodyOut.finish.injEq] at h
    exact buildOuter_true_nonempty _ _ _ _ h
  · rw [if_neg hd] at h
    simp only [] at h
    by_cases hadv : (pickLeft env.leftTiles st).2 = true ∨
        (pickLeft env.leftTiles st).1.rightTiles.isEmpty = true
    · rw [if_pos hadv] at h
      by_cases hre : (pickLeft env.leftTiles st).1.rightChildDone = true ∧
          (pickLeft env.leftTiles st).1.rightTiles.isEmpty = true
      · rw [if_pos hre] at h
        simp only [BodyOut.finish.injEq] at h
        exact buildOuter_true_nonempty _ _ _ _ h
      · rw [if_neg hre] at h
        rcases hr : env.rightTiles.get? (pickLeft env.leftTiles st).1.rightPulls with _ | t
        · rw [hr] at h
          simp only [BodyOut.finish.injEq] at h
          exact buildOuter_true_nonempty _ _ _ _ h
        · rw [hr] at h
          simp only [] at h
          by_cases hle : (pickLeft env.leftTiles st).1.leftChildDone = true ∧
              (pickLeft env.leftTiles st).1.leftTiles.isEmpty = true
          · rw [if_pos hle] at h
            simp only [BodyOut.finish.injEq] at h
            exact buildOuter_true_nonempty _ _ _ _ h
          · rw [if_neg hle] at h
            exact oldJoinPhase_ok_true env _ out st' h
    · rw [if_neg hadv] at h
      exact oldJoinPhase_ok_true env _ out st' h

/-- The correlated control loop never returns success with an empty batch. -/
theorem corr_no_empty_success (env : CorrEnv) (fuel : Nat) :
    ∀ st, emptySuccess (DExecute env fuel st) = false := by
  induction fuel with
  | zero => intro st; rfl
  | succ n ih =>
    intro st
    simp only [DExecute]
    rcases hb : corrBody env st with r | st'
    · simp only []
      rcases r with ⟨b, out, stx⟩ | k
      · rcases b with _ | _
        · rfl
        · obtain ⟨o, rfl, ho⟩ := corrBody_ok_true env st out stx hb
          simp only [emptySuccess]
          cases hbe : o.rowCount == 0
          · rfl
          · exact absurd (by simpa using hbe) ho
      · rfl
    · simp only []
      exact ih st'

/-- The materializing control loop never returns success with an empty
batch. -/
theorem old_no_empty_success (env : OldEnv) (fuel : Nat) :
    ∀ st, emptySuccess (Old_DExecute env fuel st) = false := by
  induction fuel with
  | zero => intro st; rfl
  | succ n ih =>
    intro st
    simp only [Old_DExecute]
    rcases hb : oldBody env st with r | st'
    · simp only []
      rcases r with ⟨b, out, stx⟩ | k
      · rcases b with _ | _
        · rfl
        · obtain ⟨o, rfl, ho⟩ := oldBody_ok_true env st out stx hb
          simp only [emptySuccess]
          cases hbe : o.rowCount == 0
          · rfl
          · exact absurd (by simpa using hbe) ho
      · rfl
    · simp only []
      exact ih st'

/-- C2: a single call to either control loop never returns success carrying
an empty (or missing) output batch — a batch pair contributing zero rows
makes the loop continue internally instead. -/
theorem c2_no_empty_success (fuel : Nat) (envC : CorrEnv) (envO : OldEnv)
    (st st' : JState) :
    emptySuccess (DExecute envC fuel st) = false
    ∧ emptySuccess (Old_DExecute envO fuel st') = false :=
  ⟨corr_no_empty_success envC fuel st, old_no_empty_success envO fuel st'⟩

/-! ### C7: exhaustion determinism -/

/-- The state after one outer-completion emission. -/
def emitState (jt : JoinType) (st : JState) : JState :=
  match buildOuterJoinOutput jt st with
  | .ok _ _ st' => st'
  | .ub _ => st

/-- The output of one outer-completion emission. -/
def emitOut (jt : JoinType) (st : JState) : Option Output :=
  match buildOuterJoinOutput jt st with
  | .ok _ out _ => out
  | .ub _ => none

/-- The state after `n` outer-completion emissions. -/
def emitIter (jt : JoinType) (st : JState) : Nat → JState
  | 0 => st
  | n + 1 => emitState jt (emitIter jt st n)

/-- `findGroup` only finds groups at or after the starting index. -/
theorem findGroup_ge (l : List OuterGroup) (c i : Nat) (g : OuterGroup)
    (h : findGroup l c = some (i, g)) : c ≤ i := by
  induction l generalizing c with
  | nil => simp [findGroup] at h
  | cons a as ih =>
    by_cases ha : a.rows.isEmpty
    · rw [findGroup, if_pos ha] at h
      exact Nat.le_of_succ_le (ih (c + 1) h)
    · rw [findGroup, if_neg ha] at h
      rcases h with ⟨rfl, rfl⟩
      exact Nat.le_refl _

/-- The group `findGroup` finds sits at the returned absolute index. -/
theorem findGroup_get (l : List OuterGroup) (c i : Nat) (g : OuterGroup)
    (h : findGroup l c = some (i, g)) : l.get? (i - c) = some g := by
  induction l generalizing c with
  | nil => simp [findGroup] at h
  | cons a as ih =>
    by_cases ha : a.rows.isEmpty
    · rw [findGroup, if_pos ha] at h
      have hge := findGroup_ge as (c + 1) i g h
      have := ih (c + 1) h
      have hsub : i - c = (i - (c + 1)) + 1 := by omega
      rw [hsub]
      simpa using this
    · rw [findGroup, if_neg ha] at h
      rcases h with ⟨rfl, rfl⟩
      simp

/-- The absolute-index variant of `findGroup_get`. -/
theorem findGroup_drop_get (gs : List OuterGroup) (c i : Nat) (g : OuterGroup)
    (h : findGroup (gs.drop c) c = some (i, g)) : gs.get? i = some g := by
  have hge := findGroup_ge _ _ _ _ h
  have := findGroup_get _ _ _ _ h
  rw [List.get?_drop] at this
  rwa [show c + (i - c) = i by omega] at this

/-- One emission changes only the emission cursor: every other state
component, and hence the group list, is unchanged. -/
theorem emitState_fields (jt : JoinType) (st : JState) :
    (emitState jt st).leftChildDone = st.leftChildDone
    ∧ (emitState jt st).rightChildDone = st.rightChildDone
    ∧ (emitState jt st).leftTiles = st.leftTiles
    ∧ (emitState jt st).rightTiles = st.rightTiles
    ∧ (emitState jt st).matchedLeft = st.matchedLeft
    ∧ (emitState jt st).matchedRight = st.matchedRight
    ∧ (emitState jt st).events = st.events
    ∧ outerGroups jt (emitState jt st) = outerGroups jt st := by
  unfold emitState buildOuterJoinOutput
  rcases h : findGroup ((outerGroups jt st).drop st.emitCursor) st.emitCursor with _ | ⟨i, g⟩ <;>
    simp [h, outerGroups]

/-- Cursor evolution of one emission: on a successful find the cursor jumps
just past the found index; otherwise it jumps to the end of the group list. -/
theorem emitState_cursor (jt : JoinType) (st : JState) :
    (∀ i g, findGroup ((outerGroups jt st).drop st.emitCursor) st.emitCursor = some (i, g) →
        (emitState jt st).emitCursor = i + 1
        ∧ emitOut jt st = some (.outerPad g.sd g.batchIdx g.rows))
    ∧ (findGroup ((outerGroups jt st).drop st.emitCursor) st.emitCursor = none →
        (emitState jt st).emitCursor = (outerGroups jt st).length
        ∧ emitOut jt st = none) := by
  constructor
  · intro i g h
    unfold emitState emitOut buildOuterJoinOutput
    simp [h]
  · intro h
    unfold emitState emitOut buildOuterJoinOutput
    simp [h]

/-- One emission is exactly a cursor move: every other field is kept. -/
theorem emitState_eq_set_cursor (jt : JoinType) (st : JState) :
    emitState jt st = { st with emitCursor := (emitState jt st).emitCursor } := by
  unfold emitState buildOuterJoinOutput
  rcases h : findGroup ((outerGroups jt st).drop st.emitCursor) st.emitCursor with _ | ⟨i, g⟩ <;>
    simp [h]

/-- Once an emission comes up empty, all later emissions do too, and the
state stays fixed. -/
theorem emitOut_none_absorb (jt : JoinType) (st : JState)
    (h : emitOut jt st = none) :
    emitOut jt (emitState jt st) = none
    ∧ emitState jt (emitState jt st) = emitState jt st := by
  have hf : findGroup ((outerGroups jt st).drop st.emitCursor) st.emitCursor = none := by
    rcases hf : findGroup ((outerGroups jt st).drop st.emitCursor) st.emitCursor with _ | ⟨i, g⟩
    · rfl
    · have hsome := ((emitState_cursor jt st).1 i g hf).2
      rw [h] at hsome
      cases hsome
  have hcur : (emitState jt st).emitCursor = (outerGroups jt st).length :=
    ((emitState_cursor jt st).2 hf).1
  have hgrp : outerGroups jt (emitState jt st) = outerGroups jt st :=
    (emitState_fields jt st).2.2.2.2.2.2.2
  have hnone : findGroup ((outerGroups jt (emitState jt st)).drop
      (emitState jt st).emitCursor) (emitState jt st).emitCursor = none := by
    rw [hgrp, hcur, List.drop_length]
    rfl
  refine ⟨((emitState_cursor jt (emitState jt st)).2 hnone).2, ?_⟩
  have h2 := ((emitState_cursor jt (emitState jt st)).2 hnone).1
  rw [emitState_eq_set_cursor jt (emitState jt st), h2, hgrp]
  conv_rhs => rw [emitState_eq_set_cursor jt st]
  rw [hcur]
  rw [emitState_eq_set_cursor jt st]
/-- Number of left-side groups the outer-completion emitter walks. -/
def leftGroupCount (jt : JoinType) (st : JState) : Nat :=
  if jt = .leftOuter ∨ jt = .fullOuter then st.leftTiles.length else 0

/-- The group at position `k` of the emitter's group list is tagged by its
position: left-side groups carry their position as batch index, right-side
groups their position minus the left-group count. -/
theorem outerGroups_key (jt : JoinType) (st : JState) (k : Nat) (g : OuterGroup)
    (h : (outerGroups jt st).get? k = some g) :
    (k < leftGroupCount jt st → g.sd = .lft ∧ g.batchIdx = k)
    ∧ (leftGroupCount jt st ≤ k → g.sd = .rgt ∧ g.batchIdx = k - leftGroupCount jt st) := by
  unfold outerGroups at h
  by_cases hjl : jt = .leftOuter ∨ jt = .fullOuter
  · rw [if_pos hjl] at h
    have hlen : (st.leftTiles.enum.map fun q =>
        (⟨.lft, q.1, unmatchedOf st.matchedLeft q.1 q.2⟩ : OuterGroup)).length =
        st.leftTiles.length := by simp
    have hL : leftGroupCount jt st = st.leftTiles.length := by
      unfold leftGroupCount
      rw [if_pos hjl]
    by_cases hk : k < st.leftTiles.length
    · rw [List.get?_append (by rw [hlen]; exact hk)] at h
      rw [List.get?_map, List.get?_enum] at h
      rcases hg : st.leftTiles.get? k with _ | t
      · rw [hg] at h
        simp at h
      · rw [hg] at h
        simp only [Option.map_some'] at h
        simp only [Option.some.injEq] at h
        subst h
        constructor
        · intro _
          exact ⟨rfl, rfl⟩
        · intro hge
          rw [hL] at hge
          omega
    · rw [List.get?_append_right (by rw [hlen]; omega)] at h
      rw [hlen] at h
      constructor
      · intro hlt
        rw [hL] at hlt
        omega
      · intro _
        rw [hL]
        by_cases hjr : jt = .rightOuter ∨ jt = .fullOuter
        · rw [if_pos hjr] at h
          rw [List.get?_map, List.get?_enum] at h
          rcases hg : st.rightTiles.get? (k - st.leftTiles.length) with _ | t
          · rw [hg] at h
            simp at h
          · rw [hg] at h
            simp only [Option.map_some'] at h
            simp only [Option.some.injEq] at h
            subst h
            exact ⟨rfl, rfl⟩
        · rw [if_neg hjr] at h
          simp at h
  · rw [if_neg hjl] at h
    simp only [List.nil_append] at h
    have hL : leftGroupCount jt st = 0 := by
      unfold leftGroupCount
      rw [if_neg hjl]
    constructor
    · intro hlt
      rw [hL] at hlt
      omega
    · intro _
      rw [hL]
      by_cases hjr : jt = .rightOuter ∨ jt = .fullOuter
      · rw [if_pos hjr] at h
        rw [List.get?_map, List.get?_enum] at h
        rcases hg : st.rightTiles.get? k with _ | t
        · rw [hg] at h
          simp at h
        · rw [hg] at h
          simp only [Option.map_some'] at h
          simp only [Option.some.injEq] at h
          subst h
          simp
      · rw [if_neg hjr] at h
        simp at h

/-- Two distinct positions of the emitter's group list carry distinct
(side, batch index) tags. -/
theorem outerGroups_key_inj (jt : JoinType) (st : JState) (i j : Nat)
    (gi gj : OuterGroup) (hi : (outerGroups jt st).get? i = some gi)
    (hj : (outerGroups jt st).get? j = some gj)
    (hsd : gi.sd = gj.sd) (hb : gi.batchIdx = gj.batchIdx) : i = j := by
  have ki := outerGroups_key jt st i gi hi
  have kj := outerGroups_key jt st j gj hj
  by_cases hiL : i < leftGroupCount jt st <;> by_cases hjL : j < leftGroupCount jt st
  · obtain ⟨-, hbi⟩ := ki.1 hiL
    obtain ⟨-, hbj⟩ := kj.1 hjL
    omega
  · obtain ⟨hsi, -⟩ := ki.1 hiL
    obtain ⟨hsj, -⟩ := kj.2 (by omega)
    rw [hsi, hsj] at hsd
    cases hsd
  · obtain ⟨hsi, -⟩ := ki.2 (by omega)
    obtain ⟨hsj, -⟩ := kj.1 hjL
    rw [hsi, hsj] at hsd
    cases hsd
  · obtain ⟨-, hbi⟩ := ki.2 (by omega)
    obtain ⟨-, hbj⟩ := kj.2 (by omega)
    omega

/-- Iterated emission composes additively. -/
theorem emitIter_add (jt : JoinType) (st : JState) (a b : Nat) :
    emitIter jt st (a + b) = emitIter jt (emitIter jt st a) b := by
  induction b with
  | zero => rfl
  | succ k ih => rw [Nat.add_succ, emitIter, emitIter, ih]

/-- Iterated emission never touches the group list, the exhaustion flags or
the event log. -/
theorem emitIter_fields (jt : JoinType) (st : JState) (n : Nat) :
    outerGroups jt (emitIter jt st n) = outerGroups jt st
    ∧ (emitIter jt st n).leftChildDone = st.leftChildDone
    ∧ (emitIter jt st n).rightChildDone = st.rightChildDone
    ∧ (emitIter jt st n).events = st.events := by
  induction n with
  | zero => exact ⟨rfl, rfl, rfl, rfl⟩
  | succ k ih =>
    have hf := emitState_fields jt (emitIter jt st k)
    refine ⟨?_, ?_, ?_, ?_⟩
    · rw [emitIter, hf.2.2.2.2.2.2.2, ih.1]
    · rw [emitIter, hf.1, ih.2.1]
    · rw [emitIter, hf.2.1, ih.2.2.1]
    · rw [emitIter, hf.2.2.2.2.2.2.1, ih.2.2.2]

/-- The data of a successful emission step. -/
theorem emitOut_some_step (jt : JoinType) (st1 : JState) (o : Output)
    (h : emitOut jt st1 = some o) :
    ∃ i g, o = .outerPad g.sd g.batchIdx g.rows
    ∧ (emitState jt st1).emitCursor = i + 1
    ∧ st1.emitCursor ≤ i
    ∧ (outerGroups jt st1).get? i = some g := by
  rcases hf : findGroup ((outerGroups jt st1).drop st1.emitCursor) st1.emitCursor with _ | ⟨i, g⟩
  · have := ((emitState_cursor jt st1).2 hf).2
    rw [h] at this
    cases this
  · have hc := (emitState_cursor jt st1).1 i g hf
    rw [h] at hc
    obtain ⟨hcur, ho⟩ := hc
    refine ⟨i, g, ?_, hcur, findGroup_ge _ _ _ _ hf, findGroup_drop_get _ _ _ _ hf⟩
    exact (Option.some.injEq _ _).mp ho

/-- Once an emission is empty it stays empty forever. -/
theorem emitOut_none_forward (jt : JoinType) (st : JState) (k : Nat)
    (h : emitOut jt (emitIter jt st k) = none) :
    ∀ d, emitOut jt (emitIter jt st (k + d)) = none := by
  intro d
  induction d with
  | zero => simpa using h
  | succ e ih =>
    have habs := (emitOut_none_absorb jt (emitIter jt st (k + e)) ih).1
    rw [Nat.add_succ]
    rw [emitIter]
    exact habs

/-- Along a run that is still emitting, the cursor advances at least one
position per call. -/
theorem emit_cursor_chain (jt : JoinType) (st : JState) :
    ∀ m, emitOut jt (emitIter jt st m) ≠ none →
    st.emitCursor + m ≤ (emitIter jt st m).emitCursor := by
  intro m
  induction m with
  | zero =>
    intro _
    simp [emitIter]
  | succ k ih =>
    intro hm
    have hk : emitOut jt (emitIter jt st k) ≠ none := by
      intro hn
      exact hm (by simpa using emitOut_none_forward jt st k hn 1)
    have hc := ih hk
    rcases ho : emitOut jt (emitIter jt st k) with _ | o
    · exact absurd ho hk
    · obtain ⟨i, g, -, hcur, hge, -⟩ := emitOut_some_step jt _ o ho
      rw [emitIter]
      omega

/-- No outer-completion row group is ever emitted twice across successive
calls from an exhausted state. -/
theorem emit_no_repeat (jt : JoinType) (st : JState) (n m : Nat) (hnm : n < m)
    (o o' : Output) (hn : emitOut jt (emitIter jt st n) = some o)
    (hm : emitOut jt (emitIter jt st m) = some o') : o ≠ o' := by
  obtain ⟨i, g, hoe, hcur, hge, hget⟩ := emitOut_some_step jt _ o hn
  obtain ⟨i', g', hoe', hcur', hge', hget'⟩ := emitOut_some_step jt _ o' hm
  rw [(emitIter_fields jt st n).1] at hget
  rw [(emitIter_fields jt st m).1] at hget'
  -- cursor after step n is i + 1; it only grows up to the cursor at step m
  have hshift : emitIter jt st m = emitIter jt (emitIter jt st (n + 1)) (m - (n + 1)) := by
    rw [← emitIter_add]
    congr 1
    omega
  have hmono : (emitIter jt st (n + 1)).emitCursor + (m - (n + 1)) ≤
      (emitIter jt st m).emitCursor := by
    rw [hshift]
    apply emit_cursor_chain
    rw [← hshift, hm]
    simp
  have hcne : i < i' := by
    have h1 : (emitIter jt st (n + 1)).emitCursor = i + 1 := hcur
    omega
  intro heq
  have hkey : g.sd = g'.sd ∧ g.batchIdx = g'.batchIdx := by
    rw [hoe, hoe'] at heq
    simp only [Output.outerPad.injEq] at heq
    exact ⟨heq.1, heq.2.1⟩
  have := outerGroups_key_inj jt st i i' g g' hget hget' hkey.1 hkey.2
  omega

/-- After as many calls as there are groups, emission is exhausted. -/
theorem emit_terminal (jt : JoinType) (st : JState) (n : Nat)
    (hn : (outerGroups jt st).length ≤ n) :
    emitOut jt (emitIter jt st n) = none := by
  rcases ho : emitOut jt (emitIter jt st n) with _ | o
  · rfl
  · exfalso
    obtain ⟨i, g, -, -, hge, hget⟩ := emitOut_some_step jt _ o ho
    rw [(emitIter_fields jt st n).1] at hget
    have hlt : i < (outerGroups jt st).length := by
      rcases List.get?_eq_some.mp hget with ⟨hw, -⟩
      exact hw
    have hchain := emit_cursor_chain jt st n (by rw [ho]; simp)
    omega

/-- From a doubly-exhausted state, one `DExecute` call is exactly one
outer-completion emission. -/
theorem corr_delegates_when_done (env : CorrEnv) (st : JState) (fuel : Nat)
    (hl : st.leftChildDone = true) (hr : st.rightChildDone = true) :
    DExecute env (fuel + 1) st = some (buildOuterJoinOutput env.joinType st) := by
  have hb : corrBody env st = .finish (buildOuterJoinOutput env.joinType st) := by
    unfold corrBody
    rw [if_pos ⟨hl, hr⟩]
  simp only [DExecute, hb]

/-- C7: once both child-exhaustion flags are set, every subsequent call
delegates to the outer-completion emitter and returns a further
outer-completion batch or the terminal exhaustion signal — never undefined
behavior, never a probe/push failure (the event log stays frozen), and never
a row group that was already emitted; after as many calls as there are
buffered batches, only the exhaustion signal remains. -/
theorem c7_exhaustion_determinism (env : CorrEnv) (st : JState) (fuel n m : Nat)
    (hl : st.leftChildDone = true) (hr : st.rightChildDone = true) :
    DExecute env (fuel + 1) (emitIter env.joinType st n) =
        some (buildOuterJoinOutput env.joinType (emitIter env.joinType st n))
    ∧ resIsUB (DExecute env (fuel + 1) (emitIter env.joinType st n)) = false
    ∧ resEvents (DExecute env (fuel + 1) (emitIter env.joinType st n)) = st.events
    ∧ (n < m → ∀ o o', emitOut env.joinType (emitIter env.joinType st n) = some o →
        emitOut env.joinType (emitIter env.joinType st m) = some o' → o ≠ o')
    ∧ ((outerGroups env.joinType st).length ≤ n →
        emitOut env.joinType (emitIter env.joinType st n) = none) := by
  set jt := env.joinType with hjt
  have hfl := emitIter_fields jt st n
  have hdel : DExecute env (fuel + 1) (emitIter jt st n) =
      some (buildOuterJoinOutput jt (emitIter jt st n)) :=
    corr_delegates_when_done env _ fuel (by rw [hfl.2.1]; exact hl)
      (by rw [hfl.2.2.1]; exact hr)
  refine ⟨hdel, ?_, ?_, ?_, ?_⟩
  · rw [hdel]
    obtain ⟨b, o, s, hshape⟩ := buildOuter_shape jt (emitIter jt st n)
    rw [hshape]
    rfl
  · rw [hdel]
    obtain ⟨b, o, s, hshape⟩ := buildOuter_shape jt (emitIter jt st n)
    rw [hshape]
    have hs : s = emitState jt (emitIter jt st n) := by
      unfold emitState
      rw [hshape]
    simp only [resEvents]
    rw [hs, (emitState_fields jt _).2.2.2.2.2.2.1, hfl.2.2.2]
  · intro hnm o o' ho ho'
    exact emit_no_repeat jt st n m hnm o o' ho ho'
  · intro hlen
    exact emit_terminal jt st n hlen

/-- A doubly-exhausted state used to witness C7. -/
def stDone : JState := { initState with leftChildDone := true, rightChildDone := true }

/-- Witness for C7 at a concrete input: from an exhausted state the call
delegates to the outer-completion emitter. -/
theorem c7_exhaustion_determinism_witness :
    DExecute envC6 1 (emitIter envC6.joinType stDone 0) =
      some (buildOuterJoinOutput envC6.joinType (emitIter envC6.joinType stDone 0)) :=
  (c7_exhaustion_determinism envC6 stDone 0 0 0 rfl rfl).1

/-! ### C1: the materializing loop pairs every tile combination exactly once -/

/-- Iterating the loop body of `Old_DExecute` forward (the run's state
evolution, looking through call boundaries). -/
def oldStepN (env : OldEnv) : Nat → JState → JState
  | 0, st => st
  | n + 1, st => oldStepN env n (oldStep env st)

/-- The column-major tile-pair schedule: every left index against right
batch 0, then against right batch 1, and so on. -/
def colMajor (nL nR : Nat) : List (Nat × Nat) :=
  (List.range nR).flatMap fun j => (List.range nL).map fun i => (i, j)

/-- The schedule prefix: all of columns `0 .. rp - 2`, then column `rp - 1`
up to left index `i` inclusive. -/
def colMajorUpTo (nL i rp : Nat) : List (Nat × Nat) :=
  colMajor nL (rp - 1) ++ (List.range (i + 1)).map fun x => (x, rp - 1)

/-- The row pairs the matcher evaluates for a given tile-pair log, in
iteration order. -/
def evalRowPairs (env : OldEnv) (log : List (Nat × Nat)) :
    List ((Nat × Nat) × (Nat × Nat)) :=
  log.flatMap fun p => (env.rightTiles.getD p.2 []).flatMap fun rr =>
    (env.leftTiles.getD p.1 []).map fun lr => ((p.1, lr), (p.2, rr))

/-- Run phase: streaming the left side, all left tiles so far paired against
right batch 0. -/
def phaseA (env : OldEnv) (st : JState) (lp : Nat) : Prop :=
  st.leftChildDone = false ∧ st.rightChildDone = false ∧
  st.leftResultItr = lp - 1 ∧ st.leftPulls = lp ∧ 1 ≤ lp ∧
  lp ≤ env.leftTiles.length ∧
  st.leftTiles = env.leftTiles.take lp ∧
  st.rightPulls = 1 ∧ st.rightTiles = env.rightTiles.take 1 ∧
  1 ≤ env.rightTiles.length ∧
  st.pairedLog = (List.range lp).map fun i => (i, 0)

/-- Run phase: left side buffered completely, walking the buffer against
right batch `rp - 1`, currently at left index `i`. -/
def phaseB (env : OldEnv) (st : JState) (i rp : Nat) : Prop :=
  st.leftChildDone = true ∧ st.rightChildDone = false ∧
  st.leftResultItr = i ∧ i < env.leftTiles.length ∧
  st.leftPulls = env.leftTiles.length ∧ st.leftTiles = env.leftTiles ∧
  2 ≤ rp ∧ rp ≤ env.rightTiles.length ∧ st.rightPulls = rp ∧
  st.rightTiles = env.rightTiles.take rp ∧
  st.pairedLog = colMajorUpTo env.leftTiles.length i rp

/-- Degenerate run phase: the right input is empty, the left side is still
being drained with no pairing. -/
def phaseDR (env : OldEnv) (st : JState) (lp : Nat) : Prop :=
  st.leftChildDone = false ∧ st.rightChildDone = true ∧
  st.rightTiles = [] ∧ env.rightTiles.length = 0 ∧
  st.leftResultItr = lp - 1 ∧ st.leftPulls = lp ∧ 1 ≤ lp ∧
  lp ≤ env.leftTiles.length ∧
  st.leftTiles = env.leftTiles.take lp ∧ st.pairedLog = []

/-- Degenerate run phase: the left input is empty, the right side is still
being drained with no pairing. -/
def phaseDL (env : OldEnv) (st : JState) (rp : Nat) : Prop :=
  st.leftChildDone = true ∧ st.rightChildDone = false ∧
  st.leftTiles = [] ∧ env.leftTiles.length = 0 ∧
  st.leftResultItr = 0 ∧
  1 ≤ rp ∧ rp ≤ env.rightTiles.length ∧ st.rightPulls = rp ∧
  st.rightTiles = env.rightTiles.take rp ∧ st.pairedLog = []

/-- Terminal run phase: both sides exhausted, the full column-major schedule
logged. -/
def phaseT (env : OldEnv) (st : JState) : Prop :=
  st.leftChildDone = true ∧ st.rightChildDone = true ∧
  st.pairedLog = colMajor env.leftTiles.length env.rightTiles.length

/-- All fields of the post-emission state other than the cursor. -/
theorem emitState_proj (jt : JoinType) (stx : JState) :
    (emitState jt stx).leftChildDone = stx.leftChildDone
    ∧ (emitState jt stx).rightChildDone = stx.rightChildDone
    ∧ (emitState jt stx).leftResultItr = stx.leftResultItr
    ∧ (emitState jt stx).leftTiles = stx.leftTiles
    ∧ (emitState jt stx).rightTiles = stx.rightTiles
    ∧ (emitState jt stx).leftPulls = stx.leftPulls
    ∧ (emitState jt stx).rightPulls = stx.rightPulls
    ∧ (emitState jt stx).pairedLog = stx.pairedLog := by
  rw [emitState_eq_set_cursor]
  exact ⟨rfl, rfl, rfl, rfl, rfl, rfl, rfl, rfl⟩

/-- Any loop iteration that finishes by delegating to the outer-completion
emitter steps the run state to the emitter-updated state. -/
theorem oldStep_of_body_outer (env : OldEnv) (st stx : JState)
    (hbody : oldBody env st = .finish (buildOuterJoinOutput env.joinType stx)) :
    oldStep env st = emitState env.joinType stx := by
  unfold oldStep
  rw [hbody]
  obtain ⟨b, o, s, hs⟩ := buildOuter_shape env.joinType stx
  rw [hs]
  unfold emitState
  rw [hs]

/-- Any loop iteration that reaches the join phase steps the run state to
the matcher-updated state, logging the tile pair — whether or not the pair
produced output. -/
theorem oldStep_of_body_joinPhase (env : OldEnv) (st st2 : JState) (lt rt : Tile)
    (hbody : oldBody env st = oldJoinPhase env st2)
    (hgl : st2.rightTiles.getLast? = some rt)
    (hgt : st2.leftTiles.get? st2.leftResultItr = some lt) :
    oldStep env st = { st2 with
      matchedLeft := (pairTiles env.pred st2.leftResultItr (st2.rightTiles.length - 1)
        lt rt st2.matchedLeft st2.matchedRight).ml,
      matchedRight := (pairTiles env.pred st2.leftResultItr (st2.rightTiles.length - 1)
        lt rt st2.matchedLeft st2.matchedRight).mr,
      pairedLog := st2.pairedLog ++ [(st2.leftResultItr, st2.rightTiles.length - 1)] } := by
  unfold oldStep
  rw [hbody]
  unfold oldJoinPhase
  rw [hgl, hgt]
  simp only []
  unfold pairAndEmit
  simp only []
  by_cases he : (pairTiles env.pred st2.leftResultItr (st2.rightTiles.length - 1)
      lt rt st2.matchedLeft st2.matchedRight).pairs.isEmpty
  · rw [if_pos he]
  · rw [if_neg he]

/-- `pickLeft` when the left child still returns a tile. -/
theorem pickLeft_pull (leftInput : List Tile) (st : JState) (t : Tile)
    (hld : st.leftChildDone = false) (hg : leftInput.get? st.leftPulls = some t) :
    pickLeft leftInput st = ({ st with leftPulls := st.leftPulls + 1, leftTiles := st.leftTiles ++ [t], leftResultItr := st.leftTiles.length }, false) := by
  unfold pickLeft
  rw [if_neg (by rw [hld]; simp), hg]

/-- `pickLeft` when the left child reports exhaustion. -/
theorem pickLeft_exhaust (leftInput : List Tile) (st : JState)
    (hld : st.leftChildDone = false) (hg : leftInput.get? st.leftPulls = none) :
    pickLeft leftInput st = ({ st with leftChildDone := true, leftResultItr := 0 }, true) := by
  unfold pickLeft
  rw [if_neg (by rw [hld]; simp), hg]

/-- `pickLeft` when the buffer cursor wraps past the end. -/
theorem pickLeft_wrap (leftInput : List Tile) (st : JState)
    (hld : st.leftChildDone = true)
    (hw : st.leftTiles.length ≤ st.leftResultItr + 1) :
    pickLeft leftInput st = ({ st with leftResultItr := 0 }, true) := by
  unfold pickLeft
  rw [if_pos hld, if_pos hw]

/-- `pickLeft` when the buffer cursor advances within the buffer. -/
theorem pickLeft_advance (leftInput : List Tile) (st : JState)
    (hld : st.leftChildDone = true)
    (hw : st.leftResultItr + 1 < st.leftTiles.length) :
    pickLeft leftInput st = ({ st with leftResultItr := st.leftResultItr + 1 }, false) := by
  unfold pickLeft
  rw [if_pos hld, if_neg (by omega)]

/-- The terminal phase is absorbing. -/
theorem phaseT_step (env : OldEnv) (st : JState) (h : phaseT env st) :
    phaseT env (oldStep env st) := by
  obtain ⟨hl, hr, hlog⟩ := h
  have hbody : oldBody env st = .finish (buildOuterJoinOutput env.joinType st) := by
    unfold oldBody
    rw [if_pos ⟨hl, hr⟩]
  rw [oldStep_of_body_outer env st st hbody]
  have hp := emitState_proj env.joinType st
  exact ⟨by rw [hp.1]; exact hl, by rw [hp.2.1]; exact hr,
    by rw [hp.2.2.2.2.2.2.2]; exact hlog⟩

/-- The terminal phase persists over any number of steps. -/
theorem phaseT_stepN (env : OldEnv) (st : JState) (h : phaseT env st) :
    ∀ k, phaseT env (oldStepN env k st) := by
  intro k
  induction k generalizing st with
  | zero => exact h
  | succ n ih => exact ih _ (phaseT_step env st h)

/-- One step out of the right-empty drain phase. -/
theorem phaseDR_step (env : OldEnv) (st : JState) (lp : Nat) (h : phaseDR env st lp) :
    (lp < env.leftTiles.length ∧ phaseDR env (oldStep env st) (lp + 1))
    ∨ (lp = env.leftTiles.length ∧ phaseT env (oldStep env st)) := by
  obtain ⟨hld, hrd, hrt, hnr, hitr, hlp, hlp1, hlpN, hlt, hlog⟩ := h
  have hnd : ¬(st.leftChildDone = true ∧ st.rightChildDone = true) := by
    rw [hld]
    simp
  have hlenTake : st.leftTiles.length = lp := by
    rw [hlt, List.length_take]
    omega
  by_cases hlt2 : lp < env.leftTiles.length
  · left
    refine ⟨hlt2, ?_⟩
    rcases hg : env.leftTiles.get? lp with _ | t
    · rw [List.get?_eq_none] at hg
      omega
    have hbody : oldBody env st = .finish (buildOuterJoinOutput env.joinType { st with leftPulls := lp + 1, leftTiles := st.leftTiles ++ [t], leftResultItr := st.leftTiles.length }) := by
      unfold oldBody
      rw [if_neg hnd]
      simp only []
      rw [pickLeft_pull env.leftTiles st t hld (by rw [hlp]; exact hg)]
      simp only []
      rw [if_pos (Or.inr (by rw [hrt]; rfl)), if_pos ⟨hrd, by rw [hrt]; rfl⟩, hlp]
    rw [oldStep_of_body_outer env st _ hbody]
    have hp := emitState_proj env.joinType { st with leftPulls := lp + 1, leftTiles := st.leftTiles ++ [t], leftResultItr := st.leftTiles.length }
    refine ⟨by rw [hp.1]; exact hld, by rw [hp.2.1]; exact hrd,
      by rw [hp.2.2.2.2.1]; exact hrt, hnr,
      by rw [hp.2.2.1]; show st.leftTiles.length = lp + 1 - 1; omega,
      by rw [hp.2.2.2.2.2.1],
      by omega, by omega,
      ?_, by rw [hp.2.2.2.2.2.2.2]; exact hlog⟩
    rw [hp.2.2.2.1]
    show st.leftTiles ++ [t] = List.take (lp + 1) env.leftTiles
    have hgel : env.leftTiles[lp]? = some t := by
      rw [← List.get?_eq_getElem?]
      exact hg
    rw [hlt, show [t] = env.leftTiles[lp]?.toList from by rw [hgel]; rfl, ← List.take_succ]
  · right
    have hlpe : lp = env.leftTiles.length := by omega
    refine ⟨hlpe, ?_⟩
    have hg : env.leftTiles.get? lp = none := by
      rw [List.get?_eq_none]
      omega
    have hbody : oldBody env st = .finish (buildOuterJoinOutput env.joinType
        { st with leftChildDone := true, leftResultItr := 0 }) := by
      unfold oldBody
      rw [if_neg hnd]
      simp only []
      rw [pickLeft_exhaust env.leftTiles st hld (by rw [hlp]; exact hg)]
      simp only []
      rw [if_pos (Or.inl trivial), if_pos ⟨hrd, by rw [hrt]; rfl⟩]
    rw [oldStep_of_body_outer env st _ hbody]
    have hp := emitState_proj env.joinType { st with leftChildDone := true, leftResultItr := 0 }
    refine ⟨by rw [hp.1], by rw [hp.2.1]; exact hrd, ?_⟩
    rw [hp.2.2.2.2.2.2.2]
    simp only []
    rw [hlog, colMajor]
    have : env.rightTiles.length = 0 := hnr
    rw [this]
    rfl

/-- The column-major schedule over an empty left side is empty. -/
theorem colMajor_zero_left (nR : Nat) : colMajor 0 nR = [] := by
  unfold colMajor
  induction nR with
  | zero => rfl
  | succ k ih =>
    rw [List.range_succ, List.flatMap_append, ih]
    rfl

/-- One step out of the left-empty drain phase. -/
theorem phaseDL_step (env : OldEnv) (st : JState) (rp : Nat) (h : phaseDL env st rp) :
    (rp < env.rightTiles.length ∧ phaseDL env (oldStep env st) (rp + 1))
    ∨ (rp = env.rightTiles.length ∧ phaseT env (oldStep env st)) := by
  obtain ⟨hld, hrd, hlt, hnl, hitr, hrp1, hrpN, hrp, hrt, hlog⟩ := h
  have hnd : ¬(st.leftChildDone = true ∧ st.rightChildDone = true) := by
    rw [hrd]
    simp
  by_cases hlt2 : rp < env.rightTiles.length
  · left
    refine ⟨hlt2, ?_⟩
    rcases hg : env.rightTiles.get? rp with _ | t
    · rw [List.get?_eq_none] at hg
      omega
    have hbody : oldBody env st = .finish (buildOuterJoinOutput env.joinType { st with leftResultItr := 0, rightPulls := rp + 1, rightTiles := st.rightTiles ++ [t] }) := by
      unfold oldBody
      rw [if_neg hnd]
      simp only []
      rw [pickLeft_wrap env.leftTiles st hld (by rw [hlt]; simp)]
      simp only []
      rw [if_pos (Or.inl trivial), if_neg (by rw [hrd]; simp), hrp, hg]
      simp only []
      rw [if_pos ⟨hld, by rw [hlt]; rfl⟩]
    rw [oldStep_of_body_outer env st _ hbody]
    have hp := emitState_proj env.joinType { st with leftResultItr := 0, rightPulls := rp + 1, rightTiles := st.rightTiles ++ [t] }
    refine ⟨by rw [hp.1]; exact hld, by rw [hp.2.1]; exact hrd,
      by rw [hp.2.2.2.1]; exact hlt, hnl,
      by rw [hp.2.2.1],
      by omega, by omega,
      by rw [hp.2.2.2.2.2.2.1],
      ?_, by rw [hp.2.2.2.2.2.2.2]; exact hlog⟩
    rw [hp.2.2.2.2.1]
    show st.rightTiles ++ [t] = List.take (rp + 1) env.rightTiles
    have hgel : env.rightTiles[rp]? = some t := by
      rw [← List.get?_eq_getElem?]
      exact hg
    rw [hrt, show [t] = env.rightTiles[rp]?.toList from by rw [hgel]; rfl, ← List.take_succ]
  · right
    have hrpe : rp = env.rightTiles.length := by omega
    refine ⟨hrpe, ?_⟩
    have hg : env.rightTiles.get? rp = none := by
      rw [List.get?_eq_none]
      omega
    have hbody : oldBody env st = .finish (buildOuterJoinOutput env.joinType { st with leftResultItr := 0, rightChildDone := true }) := by
      unfold oldBody
      rw [if_neg hnd]
      simp only []
      rw [pickLeft_wrap env.leftTiles st hld (by rw [hlt]; simp)]
      simp only []
      rw [if_pos (Or.inl trivial), if_neg (by rw [hrd]; simp), hrp, hg]
    rw [oldStep_of_body_outer env st _ hbody]
    have hp := emitState_proj env.joinType { st with leftResultItr := 0, rightChildDone := true }
    refine ⟨by rw [hp.1]; exact hld, by rw [hp.2.1], ?_⟩
    rw [hp.2.2.2.2.2.2.2]
    show st.pairedLog = colMajor env.leftTiles.length env.rightTiles.length
    rw [hlog, show env.leftTiles.length = 0 from hnl, colMajor_zero_left]

/-- The most recently buffered of the first `rp` right tiles. -/
theorem getLast?_take (l : List Tile) (rp : Nat) (h1 : 1 ≤ rp) (h2 : rp ≤ l.length) :
    (l.take rp).getLast? = l.get? (rp - 1) := by
  rw [List.getLast?_eq_get?, List.length_take, Nat.min_eq_left h2,
    List.get?_take (by omega)]

/-- The first column of the column-major schedule. -/
theorem colMajor_one (nL : Nat) : colMajor nL 1 = (List.range nL).map fun i => (i, 0) := by
  unfold colMajor
  rw [show (1 : Nat) = 0 + 1 from rfl, List.range_succ]
  simp

/-- Columns extend the column-major schedule one at a time. -/
theorem colMajor_succ (nL r : Nat) :
    colMajor nL (r + 1) = colMajor nL r ++ (List.range nL).map fun i => (i, r) := by
  unfold colMajor
  rw [List.range_succ, List.flatMap_append]
  simp

/-- One step out of the left-streaming phase. -/
theorem phaseA_step (env : OldEnv) (st : JState) (lp : Nat) (h : phaseA env st lp) :
    (lp < env.leftTiles.length ∧ phaseA env (oldStep env st) (lp + 1))
    ∨ (lp = env.leftTiles.length ∧ 2 ≤ env.rightTiles.length ∧
        phaseB env (oldStep env st) 0 2)
    ∨ (lp = env.leftTiles.length ∧ env.rightTiles.length = 1 ∧
        phaseT env (oldStep env st)) := by
  obtain ⟨hld, hrd, hitr, hlp, hlp1, hlpN, hlt, hrp, hrt, hnr1, hlog⟩ := h
  have hnd : ¬(st.leftChildDone = true ∧ st.rightChildDone = true) := by
    rw [hld]
    simp
  have hlenTake : st.leftTiles.length = lp := by
    rw [hlt, List.length_take]
    omega
  rcases hg0 : env.rightTiles.get? 0 with _ | r0
  · rw [List.get?_eq_none] at hg0
    omega
  have hrtOne : st.rightTiles = [r0] := by
    rw [hrt, show (1 : Nat) = 0 + 1 from rfl, List.take_succ]
    simp only [List.take_zero, List.nil_append]
    rw [← List.get?_eq_getElem?, hg0]
    rfl
  by_cases hlt2 : lp < env.leftTiles.length
  · left
    refine ⟨hlt2, ?_⟩
    rcases hg : env.leftTiles.get? lp with _ | t
    · rw [List.get?_eq_none] at hg
      omega
    have hbody : oldBody env st = oldJoinPhase env { st with leftPulls := lp + 1, leftTiles := st.leftTiles ++ [t], leftResultItr := st.leftTiles.length } := by
      unfold oldBody
      rw [if_neg hnd]
      simp only []
      rw [pickLeft_pull env.leftTiles st t hld (by rw [hlp]; exact hg)]
      simp only []
      rw [if_neg (by rw [hrtOne]; simp), hlp]
    rw [oldStep_of_body_joinPhase env st _ t r0 hbody
      (by show st.rightTiles.getLast? = some r0; rw [hrtOne]; rfl)
      (by show (st.leftTiles ++ [t]).get? st.leftTiles.length = some t
          exact List.get?_concat_length _ _)]
    refine ⟨hld, hrd, by show st.leftTiles.length = lp + 1 - 1; omega, rfl,
      by omega, by omega, ?_, hrp,
      by show st.rightTiles = List.take 1 env.rightTiles; exact hrt, hnr1, ?_⟩
    · show st.leftTiles ++ [t] = List.take (lp + 1) env.leftTiles
      have hgel : env.leftTiles[lp]? = some t := by
        rw [← List.get?_eq_getElem?]
        exact hg
      rw [hlt, show [t] = env.leftTiles[lp]?.toList from by rw [hgel]; rfl, ← List.take_succ]
    · show st.pairedLog ++ [(st.leftTiles.length, st.rightTiles.length - 1)] =
        (List.range (lp + 1)).map fun i => (i, 0)
      rw [hlog, hlenTake, hrtOne]
      simp only [List.length_cons, List.length_nil]
      rw [List.range_succ, List.map_append]
      rfl
  · have hlpe : lp = env.leftTiles.length := by omega
    have hgl : env.leftTiles.get? lp = none := by
      rw [List.get?_eq_none]
      omega
    have hlbFull : st.leftTiles = env.leftTiles := by
      rw [hlt, hlpe, List.take_length]
    rcases hg1 : env.rightTiles.get? 1 with _ | r1
    · -- right side exhausted after its single tile: terminal
      right; right
      rw [List.get?_eq_none] at hg1
      refine ⟨hlpe, by omega, ?_⟩
      have hbody : oldBody env st = .finish (buildOuterJoinOutput env.joinType { st with leftChildDone := true, leftResultItr := 0, rightChildDone := true }) := by
        unfold oldBody
        rw [if_neg hnd]
        simp only []
        rw [pickLeft_exhaust env.leftTiles st hld (by rw [hlp]; exact hgl)]
        simp only []
        rw [if_pos (Or.inl trivial), if_neg (by rw [hrd]; simp), hrp]
        rw [show env.rightTiles.get? 1 = none from by rw [List.get?_eq_none]; omega]
      rw [oldStep_of_body_outer env st _ hbody]
      have hp := emitState_proj env.joinType { st with leftChildDone := true, leftResultItr := 0, rightChildDone := true }
      refine ⟨by rw [hp.1], by rw [hp.2.1], ?_⟩
      rw [hp.2.2.2.2.2.2.2]
      show st.pairedLog = colMajor env.leftTiles.length env.rightTiles.length
      rw [hlog, show env.rightTiles.length = 1 from by omega, colMajor_one, hlpe]
    · -- a second right tile arrives: switch to buffer-walking phase
      right; left
      have hnr2 : 2 ≤ env.rightTiles.length := by
        by_contra hc
        rw [show env.rightTiles.get? 1 = none from by rw [List.get?_eq_none]; omega] at hg1
        cases hg1
      refine ⟨hlpe, hnr2, ?_⟩
      have hrt2 : st.rightTiles ++ [r1] = env.rightTiles.take 2 := by
        have hgel : env.rightTiles[1]? = some r1 := by
          rw [← List.get?_eq_getElem?]
          exact hg1
        rw [hrt, show [r1] = env.rightTiles[1]?.toList from by rw [hgel]; rfl]
        rw [show (2 : Nat) = 1 + 1 from rfl, ← List.take_succ]
      have hlbne : ¬(True ∧ st.leftTiles.isEmpty = true) := by
        intro hx
        have hnil := List.isEmpty_iff.mp hx.2
        rw [hnil] at hlenTake
        simp at hlenTake
        omega
      have hbody : oldBody env st = oldJoinPhase env { st with leftChildDone := true, leftResultItr := 0, rightPulls := 2, rightTiles := st.rightTiles ++ [r1] } := by
        unfold oldBody
        rw [if_neg hnd]
        simp only []
        rw [pickLeft_exhaust env.leftTiles st hld (by rw [hlp]; exact hgl)]
        simp only []
        rw [if_pos (Or.inl trivial), if_neg (by rw [hrd]; simp), hrp, hg1]
        simp only []
        rw [if_neg hlbne]
      rcases hgL0 : env.leftTiles.get? 0 with _ | l0
      · rw [List.get?_eq_none] at hgL0
        omega
      rw [oldStep_of_body_joinPhase env st _ l0 r1 hbody
        (by show (st.rightTiles ++ [r1]).getLast? = some r1
            rw [hrtOne]; rfl)
        (by show st.leftTiles.get? 0 = some l0
            rw [hlbFull]; exact hgL0)]
      refine ⟨rfl, hrd, rfl, by omega, by show st.leftPulls = env.leftTiles.length; omega,
        by show st.leftTiles = env.leftTiles; exact hlbFull,
        by omega, hnr2, rfl,
        by show st.rightTiles ++ [r1] = List.take 2 env.rightTiles; exact hrt2, ?_⟩
      show st.pairedLog ++ [(0, (st.rightTiles ++ [r1]).length - 1)] =
        colMajorUpTo env.leftTiles.length 0 2
      rw [hlog, hrtOne]
      unfold colMajorUpTo
      simp only [List.length_append, List.length_cons, List.length_nil]
      rw [colMajor_one, ← hlpe]
      rfl

/-- The schedule prefix ending at a full column is that many full columns. -/
theorem colMajorUpTo_full (nL rp : Nat) (h1 : 1 ≤ nL) (h2 : 1 ≤ rp) :
    colMajorUpTo nL (nL - 1) rp = colMajor nL rp := by
  unfold colMajorUpTo
  rw [show nL - 1 + 1 = nL from by omega]
  rw [show rp = (rp - 1) + 1 from by omega, colMajor_succ]
  rw [show rp - 1 + 1 - 1 = rp - 1 from by omega]

/-- One step out of the buffer-walking phase. -/
theorem phaseB_step (env : OldEnv) (st : JState) (i rp : Nat) (h : phaseB env st i rp) :
    (i + 1 < env.leftTiles.length ∧ phaseB env (oldStep env st) (i + 1) rp)
    ∨ (i + 1 = env.leftTiles.length ∧ rp < env.rightTiles.length ∧
        phaseB env (oldStep env st) 0 (rp + 1))
    ∨ (i + 1 = env.leftTiles.length ∧ rp = env.rightTiles.length ∧
        phaseT env (oldStep env st)) := by
  obtain ⟨hld, hrd, hitr, hiN, hlp, hlt, hrp2, hrpN, hrp, hrt, hlog⟩ := h
  have hnd : ¬(st.leftChildDone = true ∧ st.rightChildDone = true) := by
    rw [hrd]
    simp
  have hnL1 : 1 ≤ env.leftTiles.length := by omega
  rcases hgr : env.rightTiles.get? (rp - 1) with _ | rlast
  · rw [List.get?_eq_none] at hgr
    omega
  have hglast : st.rightTiles.getLast? = some rlast := by
    rw [hrt, getLast?_take env.rightTiles rp (by omega) hrpN]
    exact hgr
  have hrtlen : st.rightTiles.length = rp := by
    rw [hrt, List.length_take]
    omega
  by_cases hi2 : i + 1 < env.leftTiles.length
  · left
    refine ⟨hi2, ?_⟩
    rcases hgl : env.leftTiles.get? (i + 1) with _ | lt
    · rw [List.get?_eq_none] at hgl
      omega
    have hrtne : ¬(false = true ∨ st.rightTiles.isEmpty = true) := by
      intro hx
      rcases hx with hx | hx
      · cases hx
      · rw [List.isEmpty_iff] at hx
        rw [hx] at hrtlen
        simp at hrtlen
        omega
    have hbody : oldBody env st = oldJoinPhase env { st with leftResultItr := i + 1 } := by
      unfold oldBody
      rw [if_neg hnd]
      simp only []
      rw [pickLeft_advance env.leftTiles st hld (by rw [hitr, hlt]; exact hi2)]
      simp only []
      rw [if_neg hrtne, hitr]
    rw [oldStep_of_body_joinPhase env st _ lt rlast hbody
      (by show st.rightTiles.getLast? = some rlast; exact hglast)
      (by show st.leftTiles.get? (i + 1) = some lt; rw [hlt]; exact hgl)]
    refine ⟨hld, hrd, rfl, hi2, by show st.leftPulls = env.leftTiles.length; exact hlp,
      by show st.leftTiles = env.leftTiles; exact hlt,
      hrp2, hrpN, by show st.rightPulls = rp; exact hrp,
      by show st.rightTiles = List.take rp env.rightTiles; exact hrt, ?_⟩
    show st.pairedLog ++ [(i + 1, st.rightTiles.length - 1)] =
      colMajorUpTo env.leftTiles.length (i + 1) rp
    rw [hlog, hrtlen]
    unfold colMajorUpTo
    simp [List.range_succ]
  · have hie : i + 1 = env.leftTiles.length := by omega
    have hlbne : ¬(st.leftChildDone = true ∧ st.leftTiles.isEmpty = true) := by
      intro hx
      have hnil := List.isEmpty_iff.mp hx.2
      rw [hlt] at hnil
      rw [hnil] at hnL1
      simp at hnL1
    by_cases hrp3 : rp < env.rightTiles.length
    · right; left
      refine ⟨hie, hrp3, ?_⟩
      rcases hgn : env.rightTiles.get? rp with _ | rnew
      · rw [List.get?_eq_none] at hgn
        omega
      rcases hgL0 : env.leftTiles.get? 0 with _ | l0
      · rw [List.get?_eq_none] at hgL0
        omega
      have hrtx : st.rightTiles ++ [rnew] = env.rightTiles.take (rp + 1) := by
        have hgel : env.rightTiles[rp]? = some rnew := by
          rw [← List.get?_eq_getElem?]
          exact hgn
        rw [hrt, show [rnew] = env.rightTiles[rp]?.toList from by rw [hgel]; rfl,
          ← List.take_succ]
      have hbody : oldBody env st = oldJoinPhase env { st with leftResultItr := 0, rightPulls := rp + 1, rightTiles := st.rightTiles ++ [rnew] } := by
        unfold oldBody
        rw [if_neg hnd]
        simp only []
        rw [pickLeft_wrap env.leftTiles st hld (by rw [hitr, hlt]; omega)]
        simp only []
        rw [if_pos (Or.inl trivial), if_neg (by rw [hrd]; simp), hrp, hgn]
        simp only []
        rw [if_neg hlbne]
      rw [oldStep_of_body_joinPhase env st _ l0 rnew hbody
        (by show (st.rightTiles ++ [rnew]).getLast? = some rnew
            exact List.getLast?_concat _)
        (by show st.leftTiles.get? 0 = some l0; rw [hlt]; exact hgL0)]
      refine ⟨hld, hrd, rfl, by omega, by show st.leftPulls = env.leftTiles.length; exact hlp,
        by show st.leftTiles = env.leftTiles; exact hlt,
        by omega, by omega, rfl,
        by show st.rightTiles ++ [rnew] = List.take (rp + 1) env.rightTiles; exact hrtx, ?_⟩
      show st.pairedLog ++ [(0, (st.rightTiles ++ [rnew]).length - 1)] =
        colMajorUpTo env.leftTiles.length 0 (rp + 1)
      rw [hlog, List.length_append, hrtlen]
      rw [show i = env.leftTiles.length - 1 from by omega]
      rw [colMajorUpTo_full env.leftTiles.length rp hnL1 (by omega)]
      unfold colMajorUpTo
      simp only [List.length_cons, List.length_nil]
      rw [show rp + 1 - 1 = rp from by omega]
      rfl
    · right; right
      have hrpe : rp = env.rightTiles.length := by omega
      refine ⟨hie, hrpe, ?_⟩
      have hgn : env.rightTiles.get? rp = none := by
        rw [List.get?_eq_none]
        omega
      have hbody : oldBody env st = .finish (buildOuterJoinOutput env.joinType { st with leftResultItr := 0, rightChildDone := true }) := by
        unfold oldBody
        rw [if_neg hnd]
        simp only []
        rw [pickLeft_wrap env.leftTiles st hld (by rw [hitr, hlt]; omega)]
        simp only []
        rw [if_pos (Or.inl trivial), if_neg (by rw [hrd]; simp), hrp, hgn]
      rw [oldStep_of_body_outer env st _ hbody]
      have hp := emitState_proj env.joinType { st with leftResultItr := 0, rightChildDone := true }
      refine ⟨by rw [hp.1]; exact hld, by rw [hp.2.1], ?_⟩
      rw [hp.2.2.2.2.2.2.2]
      show st.pairedLog = colMajor env.leftTiles.length env.rightTiles.length
      rw [hlog, show i = env.leftTiles.length - 1 from by omega,
        colMajorUpTo_full env.leftTiles.length rp hnL1 (by omega), hrpe]

/-- The first loop iteration from the freshly initialized state. -/
theorem phaseInit_step (env : OldEnv) :
    (1 ≤ env.leftTiles.length ∧ 1 ≤ env.rightTiles.length ∧
        phaseA env (oldStep env initState) 1)
    ∨ (env.leftTiles.length = 0 ∧ 1 ≤ env.rightTiles.length ∧
        phaseDL env (oldStep env initState) 1)
    ∨ (1 ≤ env.leftTiles.length ∧ env.rightTiles.length = 0 ∧
        phaseDR env (oldStep env initState) 1)
    ∨ (env.leftTiles.length = 0 ∧ env.rightTiles.length = 0 ∧
        phaseT env (oldStep env initState)) := by
  have hnd : ¬(initState.leftChildDone = true ∧ initState.rightChildDone = true) := by
    simp [initState]
  rcases hgl : env.leftTiles.get? 0 with _ | l0 <;>
    rcases hgr : env.rightTiles.get? 0 with _ | r0
  · -- both empty
    right; right; right
    rw [List.get?_eq_none] at hgl hgr
    refine ⟨by omega, by omega, ?_⟩
    have hbody : oldBody env initState = .finish (buildOuterJoinOutput env.joinType { initState with leftChildDone := true, leftResultItr := 0, rightChildDone := true }) := by
      unfold oldBody
      rw [if_neg hnd]
      simp only []
      rw [pickLeft_exhaust env.leftTiles initState rfl (by show env.leftTiles.get? 0 = none; rw [List.get?_eq_none]; omega)]
      simp only []
      rw [if_pos (Or.inl trivial), if_neg (by simp [initState]),
        show initState.rightPulls = 0 from rfl,
        show env.rightTiles.get? 0 = none from by rw [List.get?_eq_none]; omega]
    rw [oldStep_of_body_outer env initState _ hbody]
    have hp := emitState_proj env.joinType { initState with leftChildDone := true, leftResultItr := 0, rightChildDone := true }
    refine ⟨by rw [hp.1], by rw [hp.2.1], ?_⟩
    rw [hp.2.2.2.2.2.2.2]
    show initState.pairedLog = colMajor env.leftTiles.length env.rightTiles.length
    rw [show env.leftTiles.length = 0 from by omega, colMajor_zero_left]
    rfl
  · -- left empty, right nonempty
    right; left
    rw [List.get?_eq_none] at hgl
    have hnr1 : 1 ≤ env.rightTiles.length := by
      by_contra hc
      rw [show env.rightTiles.get? 0 = none from by rw [List.get?_eq_none]; omega] at hgr
      cases hgr
    refine ⟨by omega, hnr1, ?_⟩
    have hrt1 : ([] : List Tile) ++ [r0] = env.rightTiles.take 1 := by
      have hgel : env.rightTiles[0]? = some r0 := by
        rw [← List.get?_eq_getElem?]
        exact hgr
      rw [show (1 : Nat) = 0 + 1 from rfl, List.take_succ]
      rw [hgel]
      rfl
    have hbody : oldBody env initState = .finish (buildOuterJoinOutput env.joinType { initState with leftChildDone := true, leftResultItr := 0, rightPulls := 1, rightTiles := [r0] }) := by
      unfold oldBody
      rw [if_neg hnd]
      simp only []
      rw [pickLeft_exhaust env.leftTiles initState rfl (by show env.leftTiles.get? 0 = none; rw [List.get?_eq_none]; omega)]
      simp only []
      rw [if_pos (Or.inl trivial), if_neg (by simp [initState]),
        show initState.rightPulls = 0 from rfl, hgr]
      simp only []
      rw [if_pos ⟨trivial, rfl⟩]
      rfl
    rw [oldStep_of_body_outer env initState _ hbody]
    have hp := emitState_proj env.joinType { initState with leftChildDone := true, leftResultItr := 0, rightPulls := 1, rightTiles := [r0] }
    refine ⟨by rw [hp.1], by rw [hp.2.1] <;> rfl, by rw [hp.2.2.2.1] <;> rfl, by omega,
      by rw [hp.2.2.1] <;> rfl, by omega, hnr1, by rw [hp.2.2.2.2.2.2.1],
      by rw [hp.2.2.2.2.1]; show [r0] = _; simpa using hrt1,
      by rw [hp.2.2.2.2.2.2.2] <;> rfl⟩
  · -- left nonempty, right empty
    right; right; left
    rw [List.get?_eq_none] at hgr
    have hnl1 : 1 ≤ env.leftTiles.length := by
      by_contra hc
      rw [show env.leftTiles.get? 0 = none from by rw [List.get?_eq_none]; omega] at hgl
      cases hgl
    refine ⟨hnl1, by omega, ?_⟩
    have hlt1 : ([] : List Tile) ++ [l0] = env.leftTiles.take 1 := by
      have hgel : env.leftTiles[0]? = some l0 := by
        rw [← List.get?_eq_getElem?]
        exact hgl
      rw [show (1 : Nat) = 0 + 1 from rfl, List.take_succ]
      rw [hgel]
      rfl
    have hbody : oldBody env initState = .finish (buildOuterJoinOutput env.joinType { initState with leftPulls := 1, leftTiles := [l0], leftResultItr := 0, rightChildDone := true }) := by
      unfold oldBody
      rw [if_neg hnd]
      simp only []
      rw [pickLeft_pull env.leftTiles initState l0 rfl (by show env.leftTiles.get? 0 = some l0; exact hgl)]
      simp only []
      rw [if_pos (Or.inr (show initState.rightTiles.isEmpty = true from rfl)),
        if_neg (by simp [initState]),
        show initState.rightPulls = 0 from rfl,
        show env.rightTiles.get? 0 = none from by rw [List.get?_eq_none]; omega]
      rfl
    rw [oldStep_of_body_outer env initState _ hbody]
    have hp := emitState_proj env.joinType { initState with leftPulls := 1, leftTiles := [l0], leftResultItr := 0, rightChildDone := true }
    refine ⟨by rw [hp.1] <;> rfl, by rw [hp.2.1], by rw [hp.2.2.2.2.1] <;> rfl, by omega,
      by rw [hp.2.2.1] <;> rfl, by rw [hp.2.2.2.2.2.1] <;> rfl, by omega, hnl1,
      by rw [hp.2.2.2.1]; show [l0] = _; simpa using hlt1,
      by rw [hp.2.2.2.2.2.2.2] <;> rfl⟩
  · -- both nonempty
    left
    have hnl1 : 1 ≤ env.leftTiles.length := by
      by_contra hc
      rw [show env.leftTiles.get? 0 = none from by rw [List.get?_eq_none]; omega] at hgl
      cases hgl
    have hnr1 : 1 ≤ env.rightTiles.length := by
      by_contra hc
      rw [show env.rightTiles.get? 0 = none from by rw [List.get?_eq_none]; omega] at hgr
      cases hgr
    refine ⟨hnl1, hnr1, ?_⟩
    have hbody : oldBody env initState = oldJoinPhase env { initState with leftPulls := 1, leftTiles := [l0], leftResultItr := 0, rightPulls := 1, rightTiles := [r0] } := by
      unfold oldBody
      rw [if_neg hnd]
      simp only []
      rw [pickLeft_pull env.leftTiles initState l0 rfl (by show env.leftTiles.get? 0 = some l0; exact hgl)]
      simp only []
      rw [if_pos (Or.inr (show initState.rightTiles.isEmpty = true from rfl)),
        if_neg (by simp [initState]),
        show initState.rightPulls = 0 from rfl, hgr]
      simp only []
      rw [if_neg (by simp [initState])]
      rfl
    rw [oldStep_of_body_joinPhase env initState _ l0 r0 hbody
      (by show ([r0] : List Tile).getLast? = some r0; rfl)
      (by show ([l0] : List Tile).get? 0 = some l0; rfl)]
    have hrt1 : ([r0] : List Tile) = env.rightTiles.take 1 := by
      have hgel : env.rightTiles[0]? = some r0 := by
        rw [← List.get?_eq_getElem?]
        exact hgr
      rw [show (1 : Nat) = 0 + 1 from rfl, List.take_succ, hgel]
      rfl
    have hlt1 : ([l0] : List Tile) = env.leftTiles.take 1 := by
      have hgel : env.leftTiles[0]? = some l0 := by
        rw [← List.get?_eq_getElem?]
        exact hgl
      rw [show (1 : Nat) = 0 + 1 from rfl, List.take_succ, hgel]
      rfl
    exact ⟨rfl, rfl, rfl, rfl, by omega, hnl1, hlt1, rfl, hrt1, hnr1, rfl⟩

/-- From the buffer-walking phase the run reaches the terminal phase. -/
theorem phaseB_reach (env : OldEnv) :
    ∀ d i rp st, phaseB env st i rp →
    (env.rightTiles.length - rp) * env.leftTiles.length +
      (env.leftTiles.length - 1 - i) ≤ d →
    ∃ k, phaseT env (oldStepN env k st) := by
  intro d
  induction d with
  | zero =>
    intro i rp st h hle
    obtain ⟨-, -, -, hiN, -, -, hrp2, hrpN, -, -, -⟩ := id h
    rcases phaseB_step env st i rp h with ⟨hlt, -⟩ | ⟨-, hrplt, -⟩ | ⟨-, -, hT⟩
    · omega
    · have hz : (env.rightTiles.length - rp) * env.leftTiles.length = 0 := by omega
      rcases Nat.mul_eq_zero.mp hz with hz1 | hz2
      · omega
      · omega
    · exact ⟨1, hT⟩
  | succ e ih =>
    intro i rp st h hle
    obtain ⟨-, -, -, hiN, -, -, hrp2, hrpN, -, -, -⟩ := id h
    rcases phaseB_step env st i rp h with ⟨hlt, hnext⟩ | ⟨hie, hrplt, hnext⟩ | ⟨-, -, hT⟩
    · obtain ⟨k, hk⟩ := ih (i + 1) rp (oldStep env st) hnext (by omega)
      exact ⟨k + 1, hk⟩
    · have hmul : (env.rightTiles.length - rp) * env.leftTiles.length =
          (env.rightTiles.length - (rp + 1)) * env.leftTiles.length +
            env.leftTiles.length := by
        rw [show env.rightTiles.length - rp = (env.rightTiles.length - (rp + 1)) + 1 from
          by omega, Nat.add_mul, one_mul]
      obtain ⟨k, hk⟩ := ih 0 (rp + 1) (oldStep env st) hnext (by omega)
      exact ⟨k + 1, hk⟩
    · exact ⟨1, hT⟩

/-- From the left-streaming phase the run reaches the terminal phase. -/
theorem phaseA_reach (env : OldEnv) :
    ∀ d lp st, phaseA env st lp → env.leftTiles.length - lp ≤ d →
    ∃ k, phaseT env (oldStepN env k st) := by
  intro d
  induction d with
  | zero =>
    intro lp st h hle
    rcases phaseA_step env st lp h with ⟨hlt, -⟩ | ⟨-, hnr2, hB⟩ | ⟨-, -, hT⟩
    · omega
    · obtain ⟨k, hk⟩ := phaseB_reach env
        ((env.rightTiles.length - 2) * env.leftTiles.length +
          (env.leftTiles.length - 1)) 0 2 (oldStep env st) hB (by omega)
      exact ⟨k + 1, hk⟩
    · exact ⟨1, hT⟩
  | succ e ih =>
    intro lp st h hle
    rcases phaseA_step env st lp h with ⟨hlt, hnext⟩ | ⟨-, hnr2, hB⟩ | ⟨-, -, hT⟩
    · obtain ⟨k, hk⟩ := ih (lp + 1) (oldStep env st) hnext (by omega)
      exact ⟨k + 1, hk⟩
    · obtain ⟨k, hk⟩ := phaseB_reach env
        ((env.rightTiles.length - 2) * env.leftTiles.length +
          (env.leftTiles.length - 1)) 0 2 (oldStep env st) hB (by omega)
      exact ⟨k + 1, hk⟩
    · exact ⟨1, hT⟩

/-- From the right-empty drain phase the run reaches the terminal phase. -/
theorem phaseDR_reach (env : OldEnv) :
    ∀ d lp st, phaseDR env st lp → env.leftTiles.length - lp ≤ d →
    ∃ k, phaseT env (oldStepN env k st) := by
  intro d
  induction d with
  | zero =>
    intro lp st h hle
    rcases phaseDR_step env st lp h with ⟨hlt, -⟩ | ⟨-, hT⟩
    · omega
    · exact ⟨1, hT⟩
  | succ e ih =>
    intro lp st h hle
    rcases phaseDR_step env st lp h with ⟨hlt, hnext⟩ | ⟨-, hT⟩
    · obtain ⟨k, hk⟩ := ih (lp + 1) (oldStep env st) hnext (by omega)
      exact ⟨k + 1, hk⟩
    · exact ⟨1, hT⟩

/-- From the left-empty drain phase the run reaches the terminal phase. -/
theorem phaseDL_reach (env : OldEnv) :
    ∀ d rp st, phaseDL env st rp → env.rightTiles.length - rp ≤ d →
    ∃ k, phaseT env (oldStepN env k st) := by
  intro d
  induction d with
  | zero =>
    intro rp st h hle
    rcases phaseDL_step env st rp h with ⟨hlt, -⟩ | ⟨-, hT⟩
    · omega
    · exact ⟨1, hT⟩
  | succ e ih =>
    intro rp st h hle
    rcases phaseDL_step env st rp h with ⟨hlt, hnext⟩ | ⟨-, hT⟩
    · obtain ⟨k, hk⟩ := ih (rp + 1) (oldStep env st) hnext (by omega)
      exact ⟨k + 1, hk⟩
    · exact ⟨1, hT⟩

/-- Iterating the loop body composes additively, stepping first. -/
theorem oldStepN_comm (env : OldEnv) :
    ∀ n st, oldStepN env n (oldStep env st) = oldStep env (oldStepN env n st) := by
  intro n
  induction n with
  | zero => intro st; rfl
  | succ k ih => intro st; exact ih (oldStep env st)

/-- The run is the iterated loop body from the fresh state. -/
theorem oldRun_eq_stepN (env : OldEnv) (n : Nat) :
    oldRun env n = oldStepN env n initState := by
  induction n with
  | zero => rfl
  | succ k ih =>
    rw [oldRun, ih, ← oldStepN_comm]
    rfl

/-- Iterating the loop body composes additively. -/
theorem oldStepN_add (env : OldEnv) :
    ∀ a n st, oldStepN env (a + n) st = oldStepN env n (oldStepN env a st) := by
  intro a
  induction a with
  | zero =>
    intro n st
    rw [Nat.zero_add]
    rfl
  | succ m ihm =>
    intro n st
    rw [show m + 1 + n = (m + n) + 1 from by omega]
    show oldStepN env (m + n) (oldStep env st) = oldStepN env n (oldStepN env (m + 1) st)
    rw [ihm n (oldStep env st)]
    rfl

/-- The whole run eventually sits in the terminal phase. -/
theorem oldRun_phaseT (env : OldEnv) : ∃ N, ∀ n, phaseT env (oldRun env (N + n)) := by
  have hreach : ∃ k, phaseT env (oldStepN env k initState) := by
    rcases phaseInit_step env with ⟨h1, h2, hA⟩ | ⟨h1, h2, hDL⟩ | ⟨h1, h2, hDR⟩ | ⟨h1, h2, hT⟩
    · obtain ⟨k, hk⟩ := phaseA_reach env (env.leftTiles.length - 1) 1
        (oldStep env initState) hA (by omega)
      exact ⟨k + 1, hk⟩
    · obtain ⟨k, hk⟩ := phaseDL_reach env (env.rightTiles.length - 1) 1
        (oldStep env initState) hDL (by omega)
      exact ⟨k + 1, hk⟩
    · obtain ⟨k, hk⟩ := phaseDR_reach env (env.leftTiles.length - 1) 1
        (oldStep env initState) hDR (by omega)
      exact ⟨k + 1, hk⟩
    · exact ⟨1, hT⟩
  obtain ⟨N, hN⟩ := hreach
  refine ⟨N, fun n => ?_⟩
  rw [oldRun_eq_stepN, oldStepN_add]
  exact phaseT_stepN env _ hN n

/-- Each natural occurs in `List.range n` once if below `n`, else never. -/
theorem count_range (n m : Nat) : (List.range n).count m = if m < n then 1 else 0 := by
  by_cases h : m < n
  · rw [List.count_eq_one_of_mem (List.nodup_range n) (List.mem_range.mpr h)]
    simp [h]
  · rw [List.count_eq_zero_of_not_mem (by simpa using h)]
    simp [h]

/-- Pair count within one schedule column. -/
theorem count_col (nL j i0 j0 : Nat) :
    ((List.range nL).map fun i => (i, j)).count (i0, j0) = if i0 < nL ∧ j0 = j then 1 else 0 := by
  induction nL with
  | zero => simp
  | succ n ih =>
    rw [List.range_succ, List.map_append, List.count_append, ih]
    simp only [List.map_cons, List.map_nil, List.count_cons, List.count_nil, beq_iff_eq,
      Prod.mk.injEq]
    split_ifs <;> omega

/-- Every in-range tile pair occurs exactly once in the column-major
schedule, and out-of-range pairs never occur. -/
theorem count_colMajor (nL nR i j : Nat) :
    (colMajor nL nR).count (i, j) = if i < nL ∧ j < nR then 1 else 0 := by
  induction nR with
  | zero => simp [colMajor]
  | succ m ih =>
    rw [colMajor_succ, List.count_append, ih, count_col]
    split_ifs <;> omega

/-- Row-pair count within the line of one left tile against one right row. -/
theorem count_rowline (L : List Nat) (a b r i li j rj : Nat) :
    ((L.map fun lr => ((a, lr), (b, r))).count ((i, li), (j, rj)))
      = if a = i ∧ b = j ∧ r = rj then L.count li else 0 := by
  induction L with
  | nil => simp
  | cons x xs ih =>
    simp only [List.map_cons, List.count_cons, ih, beq_iff_eq, Prod.mk.injEq]
    split_ifs <;> omega

/-- Row-pair count within the block of one tile pair. -/
theorem count_block_aux (L R : List Nat) (a b i li j rj : Nat) :
    ((R.flatMap fun rr => L.map fun lr => ((a, lr), (b, rr))).count ((i, li), (j, rj)))
      = if a = i ∧ b = j then R.count rj * L.count li else 0 := by
  induction R with
  | nil => simp
  | cons r rs ih =>
    rw [List.flatMap_cons, List.count_append, ih, count_rowline, List.count_cons]
    simp only [beq_iff_eq]
    by_cases hab : a = i ∧ b = j
    · by_cases hr : r = rj
      · rw [if_pos ⟨hab.1, hab.2, hr⟩, if_pos hab, if_pos hab, if_pos hr]
        ring
      · rw [if_neg (fun h => hr h.2.2), if_pos hab, if_pos hab, if_neg hr]
        ring
    · rw [if_neg (fun h => hab ⟨h.1, h.2.1⟩), if_neg hab, if_neg hab]

/-- Row-pair counts over a whole tile-pair log factor through the log's
tile-pair counts. -/
theorem count_evalRowPairs (env : OldEnv) (log : List (Nat × Nat)) (i li j rj : Nat) :
    (evalRowPairs env log).count ((i, li), (j, rj))
      = log.count (i, j) * ((env.rightTiles.getD j []).count rj * (env.leftTiles.getD i []).count li) := by
  induction log with
  | nil => simp [evalRowPairs]
  | cons p ps ih =>
    obtain ⟨a, b⟩ := p
    show ((env.rightTiles.getD b []).flatMap (fun rr => (env.leftTiles.getD a []).map fun lr => ((a, lr), (b, rr))) ++ evalRowPairs env ps).count ((i, li), (j, rj)) = ((a, b) :: ps).count (i, j) * ((env.rightTiles.getD j []).count rj * (env.leftTiles.getD i []).count li)
    rw [List.count_append, ih, count_block_aux, List.count_cons]
    simp only [beq_iff_eq, Prod.mk.injEq]
    by_cases hp : a = i ∧ b = j
    · obtain ⟨rfl, rfl⟩ := hp
      rw [if_pos ⟨rfl, rfl⟩, if_pos ⟨rfl, rfl⟩]
      ring
    · rw [if_neg hp, if_neg hp]
      ring

/-- C1: for every fixed pair of finite left/right input batch sequences,
the materializing control loop `Old_DExecute` reaches a terminal state in
which the tile-pair log is exactly the column-major schedule - every
previously buffered left batch paired against each newly arrived right
batch before the next right batch is pulled - so each in-range tile pair
was handed to the matcher exactly once, out-of-range pairs never, and
consequently every (left row, right row) combination of the inputs was
evaluated by the pairwise matcher exactly once (counted with multiplicity,
neither skipped nor evaluated twice). -/
theorem c1_materializing_pairs_exactly_once (env : OldEnv) :
    ∃ N, ∀ n,
      (oldRun env (N + n)).leftChildDone = true ∧
      (oldRun env (N + n)).rightChildDone = true ∧
      (oldRun env (N + n)).pairedLog
        = colMajor env.leftTiles.length env.rightTiles.length ∧
      (∀ i j, ((oldRun env (N + n)).pairedLog.count (i, j)
        = if i < env.leftTiles.length ∧ j < env.rightTiles.length then 1 else 0)) ∧
      (∀ i li j rj, (evalRowPairs env (oldRun env (N + n)).pairedLog).count ((i, li), (j, rj))
        = (env.leftTiles.getD i []).count li * (env.rightTiles.getD j []).count rj) := by
  obtain ⟨N, hN⟩ := oldRun_phaseT env
  refine ⟨N, fun n => ?_⟩
  obtain ⟨h1, h2, hlog⟩ := hN n
  refine ⟨h1, h2, hlog, ?_, ?_⟩
  · intro i j
    rw [hlog, count_colMajor]
  · intro i li j rj
    rw [count_evalRowPairs, hlog, count_colMajor]
    by_cases hij : i < env.leftTiles.length ∧ j < env.rightTiles.length
    · rw [if_pos hij, Nat.one_mul, Nat.mul_comm]
    · rw [if_neg hij, Nat.zero_mul]
      rcases not_and_or.mp hij with h | h
      · rw [List.getD_eq_default _ _ (Nat.le_of_not_lt h), List.count_nil, Nat.zero_mul]
      · rw [List.getD_eq_default _ _ (Nat.le_of_not_lt h), List.count_nil, Nat.mul_zero]
